import Mathlib

/-!
Verification development for the StoryToolkitAI toolkit_ops core
(`src/storytoolkitai/core/toolkit_ops/toolkit_ops.py`).

The Python code is shallowly embedded: time values (Python floats used as
seconds) are modelled as rationals, Python lists as Lean lists, Python
`[start, end]` interval pairs as `ℚ × ℚ`, and Python dict segments as a
structure with the fields the code reads and writes.  Every definition is
translated from the source file; the few operations of this repository that
live outside the provided source tree (the transcription store and the
patched whisper backend) are modelled from the specification and marked as
such in their doc comments.
-/

/-! ## Interval algebra (toolkit_ops.py lines 901-1092) -/

/-- Comparison used by every `sorted(..., key=lambda x: x[0])` call in the
source: order interval pairs by their start time. -/
def startLe (a b : ℚ × ℚ) : Prop := a.1 ≤ b.1

instance : DecidableRel startLe := fun a b => inferInstanceAs (Decidable (a.1 ≤ b.1))

instance : IsTotal (ℚ × ℚ) startLe := ⟨fun a b => le_total a.1 b.1⟩

instance : IsTrans (ℚ × ℚ) startLe := ⟨fun _ _ _ h h2 => le_trans h h2⟩

/-- Python's `sorted(intervals, key=lambda x: x[0])`: a stable sort by start
time (insertion sort is stable, hence extensionally equal to Python's sort). -/
def sortByStart (l : List (ℚ × ℚ)) : List (ℚ × ℚ) := List.insertionSort startLe l

/-- Loop of `combine_intervals` (lines 1024-1043): `cur` is
`current_timestamp`; when the next interval starts within `g` of `cur`'s end
the code overwrites `current_timestamp[1] = interval[1]` (no `max`),
otherwise it emits `cur` and continues from the next interval. -/
def combineGo (cur : ℚ × ℚ) (l : List (ℚ × ℚ)) (g : ℚ) : List (ℚ × ℚ) :=
  match l with
  | [] => [cur]
  | i :: rest =>
    if i.1 - cur.2 ≤ g then combineGo (cur.1, i.2) rest g
    else cur :: combineGo i rest g

/-- `combine_intervals(intervals, combine_min_time)` (lines 1006-1045):
empty input returns `[]`; otherwise sort by start and run the merge scan. -/
def combine_intervals (intervals : List (ℚ × ℚ)) (g : ℚ) : List (ℚ × ℚ) :=
  match sortByStart intervals with
  | [] => []
  | c :: rest => combineGo c rest g

/-- Pair intersection loop of `combine_overlapping_intervals`
(lines 1078-1090): for every pair whose ranges touch, emit
`[max(starts), min(ends)]`, outer loop over `intervals`, inner loop over
`additional_intervals`. -/
def intersectPairs (l a : List (ℚ × ℚ)) : List (ℚ × ℚ) :=
  l.flatMap fun i =>
    (a.filter fun ai => ai.1 ≤ i.2 ∧ ai.2 ≥ i.1).map fun ai =>
      (max i.1 ai.1, min i.2 ai.2)

/-- `combine_overlapping_intervals(intervals, additional_intervals)`
(lines 1047-1092).  The Python arguments are either `None` or interval
lists, modelled as `Option`; the source's `type(...) is bool` guards are
vacuous on those inputs.  Both lists are sorted by start before the pair
scan; with an absent second argument the first list is returned sorted. -/
def combine_overlapping_intervals (intervals additional : Option (List (ℚ × ℚ))) :
    Option (List (ℚ × ℚ)) :=
  match intervals, additional with
  | none, none => none
  | none, some a => some a
  | some l, none => some (sortByStart l)
  | some l, some a => some (intersectPairs (sortByStart l) (sortByStart a))

/-- A whole point `t` lies inside some interval of `l` (used to state the
coverage part of the `combine_intervals` claim). -/
def memUnion (l : List (ℚ × ℚ)) (t : ℚ) : Bool :=
  l.any fun p => p.1 ≤ t ∧ t ≤ p.2

/-- Two intervals overlap with positive duration. -/
def posOverlap (a b : ℚ × ℚ) : Bool :=
  max a.1 b.1 < min a.2 b.2

/-! ## Lemmas about the combine scan -/

theorem combineGo_forall_start (g : ℚ) :
    ∀ (l : List (ℚ × ℚ)) (cur : ℚ × ℚ), l.Pairwise startLe →
      (∀ p ∈ l, cur.1 ≤ p.1) → ∀ x ∈ combineGo cur l g, cur.1 ≤ x.1
  | [], cur, _, _, x, hx => by
    simp only [combineGo, List.mem_singleton] at hx; subst hx; exact le_refl _
  | i :: rest, cur, hsort, hge, x, hx => by
    rw [combineGo] at hx
    rcases List.pairwise_cons.mp hsort with ⟨hi, hrest⟩
    by_cases hc : i.1 - cur.2 ≤ g
    · rw [if_pos hc] at hx
      exact combineGo_forall_start g rest (cur.1, i.2) hrest
        (fun p hp => hge p (List.mem_cons_of_mem _ hp)) x hx
    · rw [if_neg hc] at hx
      rcases List.mem_cons.mp hx with h | h
      · subst h; exact le_refl _
      · exact le_trans (hge i (List.mem_cons_self i rest))
          (combineGo_forall_start g rest i hrest hi x h)

theorem combineGo_wf (g : ℚ) :
    ∀ (l : List (ℚ × ℚ)) (cur : ℚ × ℚ), cur.1 ≤ cur.2 →
      (∀ p ∈ l, p.1 ≤ p.2) → l.Pairwise startLe → (∀ p ∈ l, cur.1 ≤ p.1) →
      ∀ x ∈ combineGo cur l g, x.1 ≤ x.2
  | [], cur, hcur, _, _, _, x, hx => by
    simp only [combineGo, List.mem_singleton] at hx; subst hx; exact hcur
  | i :: rest, cur, hcur, hwf, hsort, hge, x, hx => by
    rw [combineGo] at hx
    rcases List.pairwise_cons.mp hsort with ⟨hi, hrest⟩
    have hi1 : cur.1 ≤ i.1 := hge i (List.mem_cons_self i rest)
    have hi2 : i.1 ≤ i.2 := hwf i (List.mem_cons_self i rest)
    by_cases hc : i.1 - cur.2 ≤ g
    · rw [if_pos hc] at hx
      exact combineGo_wf g rest (cur.1, i.2) (le_trans hi1 hi2)
        (fun p hp => hwf p (List.mem_cons_of_mem _ hp)) hrest
        (fun p hp => hge p (List.mem_cons_of_mem _ hp)) x hx
    · rw [if_neg hc] at hx
      rcases List.mem_cons.mp hx with h | h
      · subst h; exact hcur
      · exact combineGo_wf g rest i hi2
          (fun p hp => hwf p (List.mem_cons_of_mem _ hp)) hrest hi x h

theorem combineGo_pairwise (g : ℚ) (hg : 0 ≤ g) :
    ∀ (l : List (ℚ × ℚ)) (cur : ℚ × ℚ), cur.1 ≤ cur.2 →
      (∀ p ∈ l, p.1 ≤ p.2) → l.Pairwise startLe → (∀ p ∈ l, cur.1 ≤ p.1) →
      (combineGo cur l g).Pairwise (fun a b => a.1 ≤ b.1 ∧ a.2 < b.1)
  | [], cur, _, _, _, _ => by simp [combineGo]
  | i :: rest, cur, hcur, hwf, hsort, hge => by
    rw [combineGo]
    rcases List.pairwise_cons.mp hsort with ⟨hi, hrest⟩
    have hi1 : cur.1 ≤ i.1 := hge i (List.mem_cons_self i rest)
    have hi2 : i.1 ≤ i.2 := hwf i (List.mem_cons_self i rest)
    by_cases hc : i.1 - cur.2 ≤ g
    · rw [if_pos hc]
      exact combineGo_pairwise g hg rest (cur.1, i.2) (le_trans hi1 hi2)
        (fun p hp => hwf p (List.mem_cons_of_mem _ hp)) hrest
        (fun p hp => hge p (List.mem_cons_of_mem _ hp))
    · rw [if_neg hc]
      have hlt : cur.2 < i.1 := by
        by_contra hle
        exact hc (by linarith [not_lt.mp hle])
      refine List.pairwise_cons.mpr ⟨?_, ?_⟩
      · intro x hx
        have hxs : i.1 ≤ x.1 := combineGo_forall_start g rest i hrest hi x hx
        exact ⟨le_trans hcur (le_of_lt (lt_of_lt_of_le hlt hxs)), lt_of_lt_of_le hlt hxs⟩
      · exact combineGo_pairwise g hg rest i hi2
          (fun p hp => hwf p (List.mem_cons_of_mem _ hp)) hrest hi

/-! ## Claim C1 -/

/-- C1 (amended): for well-formed intervals and a non-negative min-gap,
`combine_intervals` returns a list that is sorted by start and pairwise
non-overlapping (each interval ends strictly before the next begins), and
every returned interval is well-formed.  The coverage half of the original
claim is false: see `combine_intervals_union_counterexample`. -/
theorem combine_intervals_sorted_nonoverlapping (intervals : List (ℚ × ℚ)) (g : ℚ)
    (hg : 0 ≤ g) (hwf : ∀ p ∈ intervals, p.1 ≤ p.2) :
    (combine_intervals intervals g).Pairwise (fun a b => a.1 ≤ b.1 ∧ a.2 < b.1) ∧
    ∀ p ∈ combine_intervals intervals g, p.1 ≤ p.2 := by
  unfold combine_intervals
  have hsorted : (sortByStart intervals).Pairwise startLe :=
    List.sorted_insertionSort startLe intervals
  have hwfs : ∀ p ∈ sortByStart intervals, p.1 ≤ p.2 := by
    intro p hp
    exact hwf p ((List.perm_insertionSort startLe intervals).mem_iff.mp hp)
  cases hs : sortByStart intervals with
  | nil => simp
  | cons c rest =>
    rw [hs] at hsorted hwfs
    rcases List.pairwise_cons.mp hsorted with ⟨hc, hrest⟩
    have hcwf : c.1 ≤ c.2 := hwfs c (List.mem_cons_self c rest)
    have hrwf : ∀ p ∈ rest, p.1 ≤ p.2 := fun p hp => hwfs p (List.mem_cons_of_mem _ hp)
    exact ⟨combineGo_pairwise g hg rest c hcwf hrwf hrest hc,
      combineGo_wf g rest c hcwf hrwf hrest hc⟩

/-- C1 counterexample: with inputs `[[0,4],[6,8]]` and `min_gap = 2` the
merge absorbs the gap, so the output `[[0,8]]` contains the time `5` even
though no input interval does — the output does not cover exactly the union
of the input ranges. -/
theorem combine_intervals_union_counterexample :
    memUnion (combine_intervals [(0,4),(6,8)] 2) 5 = true ∧
    memUnion [((0:ℚ),4),(6,8)] 5 = false := by
  norm_num [memUnion, combine_intervals, sortByStart, List.insertionSort,
    List.orderedInsert, startLe, combineGo, List.any]

/-- Witness for `combine_intervals_sorted_nonoverlapping` at a concrete input. -/
theorem combine_intervals_sorted_nonoverlapping_witness :
    (combine_intervals [((0:ℚ),4),(6,8)] 2).Pairwise (fun a b => a.1 ≤ b.1 ∧ a.2 < b.1) ∧
    ∀ p ∈ combine_intervals [((0:ℚ),4),(6,8)] 2, p.1 ≤ p.2 :=
  combine_intervals_sorted_nonoverlapping [(0,4),(6,8)] 2 (by norm_num) (by decide)

/-! ## Claim C6 -/

/-- C6 (amended): with an absent second argument
`combine_overlapping_intervals` returns the first list sorted by start
(hence unchanged exactly when it is already sorted); with both arguments
absent it returns `none`, and with an empty second list it returns an empty
list, so an absent restriction and an empty restriction are distinguished. -/
theorem combine_overlapping_intervals_absent_args :
    (∀ l : List (ℚ × ℚ), combine_overlapping_intervals (some l) none = some (sortByStart l)) ∧
    (∀ l : List (ℚ × ℚ), l.Pairwise startLe →
      combine_overlapping_intervals (some l) none = some l) ∧
    combine_overlapping_intervals none none = none ∧
    (∀ l : List (ℚ × ℚ), combine_overlapping_intervals (some l) (some []) = some []) := by
  refine ⟨fun l => rfl, fun l hl => ?_, rfl, fun l => ?_⟩
  · simp only [combine_overlapping_intervals, sortByStart, Option.some.injEq]
    exact List.Sorted.insertionSort_eq hl
  · simp [combine_overlapping_intervals, intersectPairs, sortByStart]

/-- C6 counterexample: an unsorted first list is not returned unchanged when
the second argument is absent — it comes back sorted. -/
theorem combine_overlapping_intervals_unsorted_counterexample :
    combine_overlapping_intervals (some [((2:ℚ),3),(0,1)]) none ≠
      some [((2:ℚ),3),(0,1)] := by decide

/-- Witness for `combine_overlapping_intervals_absent_args` at a concrete input. -/
theorem combine_overlapping_intervals_absent_args_witness :
    combine_overlapping_intervals (some [((0:ℚ),1),(2,3)]) none = some [((0:ℚ),1),(2,3)] :=
  combine_overlapping_intervals_absent_args.2.1 [(0,1),(2,3)] (by decide)

/-! ## Audio windowing (toolkit_ops.py lines 901-939 and 1885-1936) -/

/-- Python `int()` applied to a non-integral number truncates toward zero. -/
def pyInt (q : ℚ) : ℤ := if 0 ≤ q then ⌊q⌋ else ⌈q⌉

/-- Normalisation of one Python slice index against a list of length `n`:
negative indices count from the end, and both ends clamp to `[0, n]`. -/
def pySliceNorm (n : ℕ) (i : ℤ) : ℕ := if i < 0 then (n + i).toNat else min i.toNat n

/-- Python `l[i:j]`. -/
def pySlice {α : Type} (l : List α) (i j : ℤ) : List α :=
  (l.take (pySliceNorm l.length j)).drop (pySliceNorm l.length i)

/-- `split_audio_by_intervals(audio_array, time_intervals, sr)`
(lines 901-939).  With a non-empty interval list: sort, merge overlapping
intervals (`combine_intervals(..., 0)`) and slice the audio for each
interval.  Otherwise return one whole-audio window; the source computes the
window end as `len(audio_array / sr)` — the length of the elementwise
quotient array, i.e. the sample count — while the returned `time_intervals`
use the correct `len(audio_array) / sr`. -/
def split_audio_by_intervals (audio : List ℚ) (time_intervals : Option (List (ℚ × ℚ)))
    (sr : ℚ) : List (ℚ × ℚ × List ℚ) × List (ℚ × ℚ) :=
  let fallback : List (ℚ × ℚ × List ℚ) × List (ℚ × ℚ) :=
    ([((0 : ℚ), (((audio.map fun x => x / sr).length : ℕ) : ℚ), audio)],
     [((0 : ℚ), ((audio.length : ℕ) : ℚ) / sr)])
  match time_intervals with
  | some tis =>
    if tis = [] then fallback
    else
      let tis2 := combine_intervals (sortByStart tis) 0
      (tis2.map fun ti => (ti.1, ti.2, pySlice audio (pyInt (ti.1 * sr)) (pyInt (ti.2 * sr))),
       tis2)
  | none => fallback

/-- Inner split of `exclude_segments_by_intervals` (lines 1906-1928): apply
one excluded interval to each temp interval, keeping the part before and
the part after the exclusion. -/
def subtractOne (tmp : List (ℚ × ℚ)) (E : ℚ × ℚ) : List (ℚ × ℚ) :=
  tmp.flatMap fun T =>
    if E.2 ≤ T.1 ∨ E.1 ≥ T.2 then [T]
    else (if T.1 < E.1 then [(T.1, E.1)] else []) ++ (if T.2 > E.2 then [(E.2, T.2)] else [])

/-- Outer loop of `exclude_segments_by_intervals` (lines 1902-1931): for
each kept interval, cumulatively subtract every excluded interval. -/
def excludePieces (kept excluded : List (ℚ × ℚ)) : List (ℚ × ℚ) :=
  kept.flatMap fun iv => excluded.foldl subtractOne [iv]

/-- `exclude_segments_by_intervals(audio_array, time_intervals,
excluded_time_intervals, sr)` (lines 1885-1936).  If either list is falsy
the call falls through to `split_audio_by_intervals` with the original
`time_intervals`; otherwise the excluded ranges (sorted) are subtracted
from each kept interval and the resulting pieces are windowed. -/
def exclude_segments_by_intervals (audio : List ℚ)
    (time_intervals excluded : Option (List (ℚ × ℚ))) (sr : ℚ) :
    List (ℚ × ℚ × List ℚ) × List (ℚ × ℚ) :=
  match time_intervals, excluded with
  | some tis, some exc =>
    if tis = [] ∨ exc = [] then split_audio_by_intervals audio (some tis) sr
    else split_audio_by_intervals audio (some (excludePieces tis (sortByStart exc))) sr
  | _, _ => split_audio_by_intervals audio time_intervals sr

/-! ## Claim C5 -/

/-- C5: evidence for the code bug in the whole-audio fallback of
`split_audio_by_intervals`.  For a two-sample audio array at 16000 Hz the
single returned window carries end time `2` (the sample count, coming from
the source's `len(audio_array / sr)`), while the correct full duration — as
returned in `time_intervals` on the neighbouring line — is `2/16000`. -/
theorem split_audio_by_intervals_whole_window_bug :
    (split_audio_by_intervals [0, 0] none 16000).1 = [((0 : ℚ), 2, [0, 0])] ∧
    (split_audio_by_intervals [0, 0] none 16000).2 = [((0 : ℚ), 2 / 16000)] ∧
    ((2 : ℚ) ≠ 2 / 16000) := by
  refine ⟨?_, ?_, by norm_num⟩ <;>
    simp [split_audio_by_intervals]

/-! ## Lemmas for interval exclusion -/

/-- Intervals that do not overlap with positive duration, as a linear
arithmetic statement. -/
def notOv (p E : ℚ × ℚ) : Prop := min p.2 E.2 ≤ max p.1 E.1

theorem notOv_iff (p E : ℚ × ℚ) : notOv p E ↔ posOverlap p E = false := by
  unfold notOv posOverlap
  rw [decide_eq_false_iff_not, not_lt]

theorem notOv_shrink {p q E : ℚ × ℚ} (h1 : p.1 ≤ q.1) (h2 : q.2 ≤ p.2)
    (h : notOv p E) : notOv q E :=
  le_trans (min_le_min h2 (le_refl _)) (le_trans h (max_le_max h1 (le_refl _)))

theorem subtractOne_avoids (tmp : List (ℚ × ℚ)) (E : ℚ × ℚ) :
    ∀ p ∈ subtractOne tmp E, notOv p E := by
  intro p hp
  simp only [subtractOne, List.mem_flatMap] at hp
  obtain ⟨T, hT, hmem⟩ := hp
  by_cases hout : E.2 ≤ T.1 ∨ E.1 ≥ T.2
  · rw [if_pos hout] at hmem
    have hpT : p = T := List.mem_singleton.mp hmem
    subst hpT
    rcases hout with h | h
    · exact le_trans (min_le_right _ _) (le_trans h (le_max_left _ _))
    · exact le_trans (min_le_left _ _) (le_trans h (le_max_right _ _))
  · rw [if_neg hout] at hmem
    rcases List.mem_append.mp hmem with h | h
    · split_ifs at h with hsp
      · have hpv : p = (T.1, E.1) := List.mem_singleton.mp h
        subst hpv
        exact le_trans (min_le_left _ _) (le_max_right _ _)
      · simp at h
    · split_ifs at h with hsp
      · have hpv : p = (E.2, T.2) := List.mem_singleton.mp h
        subst hpv
        exact le_trans (min_le_right _ _) (le_max_left _ _)
      · simp at h

theorem subtractOne_preserves (tmp : List (ℚ × ℚ)) (E E0 : ℚ × ℚ)
    (h : ∀ p ∈ tmp, notOv p E0) : ∀ p ∈ subtractOne tmp E, notOv p E0 := by
  intro p hp
  simp only [subtractOne, List.mem_flatMap] at hp
  obtain ⟨T, hT, hmem⟩ := hp
  by_cases hout : E.2 ≤ T.1 ∨ E.1 ≥ T.2
  · rw [if_pos hout] at hmem
    have hpT : p = T := List.mem_singleton.mp hmem
    subst hpT
    exact h _ hT
  · rw [if_neg hout] at hmem
    push_neg at hout
    rcases List.mem_append.mp hmem with hm | hm
    · split_ifs at hm with hsp
      · have hpv : p = (T.1, E.1) := List.mem_singleton.mp hm
        subst hpv
        exact @notOv_shrink T (T.1, E.1) E0 (le_refl _) (le_of_lt hout.2) (h T hT)
      · simp at hm
    · split_ifs at hm with hsp
      · have hpv : p = (E.2, T.2) := List.mem_singleton.mp hm
        subst hpv
        exact @notOv_shrink T (E.2, T.2) E0 (le_of_lt hout.1) (le_refl _) (h T hT)
      · simp at hm

theorem foldl_subtract_preserves (E0 : ℚ × ℚ) :
    ∀ (es tmp : List (ℚ × ℚ)), (∀ p ∈ tmp, notOv p E0) →
      ∀ p ∈ List.foldl subtractOne tmp es, notOv p E0
  | [], tmp, h => h
  | E :: es, tmp, h => by
    simp only [List.foldl_cons]
    exact foldl_subtract_preserves E0 es (subtractOne tmp E) (subtractOne_preserves tmp E E0 h)

theorem foldl_subtract_avoids :
    ∀ (es tmp : List (ℚ × ℚ)), ∀ p ∈ List.foldl subtractOne tmp es, ∀ E ∈ es, notOv p E
  | [], _, _, _, E, hE => absurd hE (List.not_mem_nil E)
  | E0 :: es, tmp, p, hp, E, hE => by
    simp only [List.foldl_cons] at hp
    rcases List.mem_cons.mp hE with rfl | hE
    · exact foldl_subtract_preserves E es (subtractOne tmp E)
        (subtractOne_avoids tmp E) p hp
    · exact foldl_subtract_avoids es (subtractOne tmp E0) p hp E hE

theorem excludePieces_avoids (kept exc : List (ℚ × ℚ)) :
    ∀ p ∈ excludePieces kept exc, ∀ E ∈ exc, notOv p E := by
  intro p hp E hE
  simp only [excludePieces, List.mem_flatMap] at hp
  obtain ⟨iv, _, hmem⟩ := hp
  exact foldl_subtract_avoids exc [iv] p hmem E hE

/-- Arithmetic core of merge preservation: if neither `cur` nor `i` overlaps
`E` with positive duration and `i` starts no later than `cur` ends, the
merged `(cur.1, i.2)` does not overlap `E` either. -/
theorem notOv_merge {cur i E : ℚ × ℚ} (h1 : notOv cur E) (h2 : notOv i E)
    (h3 : i.1 ≤ cur.2) : notOv (cur.1, i.2) E := by
  unfold notOv at *
  rcases le_total cur.2 E.2 with hce | hce
  · rw [min_eq_left hce] at h1
    exact le_trans h2 (max_le (le_trans h3 h1) (le_max_right _ _))
  · rw [min_eq_right hce] at h1
    exact le_trans (min_le_right _ _) h1

theorem combineGo_avoids (E : ℚ × ℚ) :
    ∀ (l : List (ℚ × ℚ)) (cur : ℚ × ℚ), notOv cur E → (∀ p ∈ l, notOv p E) →
      ∀ x ∈ combineGo cur l 0, notOv x E
  | [], cur, hcur, _, x, hx => by
    simp only [combineGo, List.mem_singleton] at hx; subst hx; exact hcur
  | i :: rest, cur, hcur, hl, x, hx => by
    rw [combineGo] at hx
    have hiE : notOv i E := hl i (List.mem_cons_self i rest)
    by_cases hc : i.1 - cur.2 ≤ 0
    · rw [if_pos hc] at hx
      exact combineGo_avoids E rest (cur.1, i.2)
        (notOv_merge hcur hiE (by linarith))
        (fun p hp => hl p (List.mem_cons_of_mem _ hp)) x hx
    · rw [if_neg hc] at hx
      rcases List.mem_cons.mp hx with h | h
      · subst h; exact hcur
      · exact combineGo_avoids E rest i hiE
          (fun p hp => hl p (List.mem_cons_of_mem _ hp)) x h

theorem combine_intervals_avoids (l : List (ℚ × ℚ)) (E : ℚ × ℚ)
    (h : ∀ p ∈ l, notOv p E) : ∀ x ∈ combine_intervals l 0, notOv x E := by
  intro x hx
  unfold combine_intervals at hx
  have hs : ∀ p ∈ sortByStart l, notOv p E := by
    intro p hp
    exact h p ((List.perm_insertionSort startLe l).mem_iff.mp hp)
  cases hsrt : sortByStart l with
  | nil => rw [hsrt] at hx; simp at hx
  | cons c rest =>
    rw [hsrt] at hx hs
    exact combineGo_avoids E rest c (hs c (List.mem_cons_self c rest))
      (fun p hp => hs p (List.mem_cons_of_mem _ hp)) x hx

/-- `combineGo` leaves a strictly separated list unchanged. -/
theorem combineGo_id :
    ∀ (l : List (ℚ × ℚ)) (cur : ℚ × ℚ), List.Chain (fun a b => a.2 < b.1) cur l →
      combineGo cur l 0 = cur :: l
  | [], _, _ => rfl
  | i :: rest, cur, hch => by
    rcases List.chain_cons.mp hch with ⟨h1, h2⟩
    rw [combineGo, if_neg (by linarith), combineGo_id rest i h2]

/-! ## Claim C7 -/

/-- C7 (amended): provided the kept list is non-empty and the subtraction
leaves at least one piece, no interval returned by
`exclude_segments_by_intervals` overlaps any excluded interval with positive
duration.  Excluding an empty list does not return the kept intervals
unchanged: it returns them sorted and merged at zero gap, which equals the
input exactly when the input is already sorted with strictly separated
intervals. -/
theorem exclude_segments_by_intervals_no_overlap (audio : List ℚ) (sr : ℚ)
    (tis exc : List (ℚ × ℚ)) (htis : tis ≠ [])
    (hp : excludePieces tis (sortByStart exc) ≠ []) :
    (∀ O ∈ (exclude_segments_by_intervals audio (some tis) (some exc) sr).2,
      ∀ E ∈ exc, posOverlap O E = false) ∧
    (exclude_segments_by_intervals audio (some tis) (some []) sr).2
      = combine_intervals (sortByStart tis) 0 ∧
    (tis.Pairwise startLe → tis.Chain' (fun a b => a.2 < b.1) →
      (exclude_segments_by_intervals audio (some tis) (some []) sr).2 = tis) := by
  have hbase : (exclude_segments_by_intervals audio (some tis) (some []) sr).2
      = combine_intervals (sortByStart tis) 0 := by
    simp only [exclude_segments_by_intervals, or_true, if_true,
      split_audio_by_intervals, if_neg htis]
  refine ⟨?_, hbase, ?_⟩
  · intro O hO E hE
    by_cases hexc : exc = []
    · subst hexc; simp at hE
    · rw [← notOv_iff]
      have hroute :
          (exclude_segments_by_intervals audio (some tis) (some exc) sr).2
            = combine_intervals (sortByStart (excludePieces tis (sortByStart exc))) 0 := by
        simp only [exclude_segments_by_intervals, if_neg (not_or.mpr ⟨htis, hexc⟩),
          split_audio_by_intervals, if_neg hp]
      rw [hroute] at hO
      refine combine_intervals_avoids _ E ?_ O hO
      intro p hpm
      have hpm2 : p ∈ excludePieces tis (sortByStart exc) :=
        (List.perm_insertionSort startLe _).mem_iff.mp hpm
      exact excludePieces_avoids tis (sortByStart exc) p hpm2 E
        ((List.perm_insertionSort startLe exc).mem_iff.mpr hE)
  · intro hsort hchain
    rw [hbase, sortByStart, List.Sorted.insertionSort_eq hsort]
    cases tis with
    | nil => exact absurd rfl htis
    | cons c rest =>
      unfold combine_intervals
      rw [sortByStart, List.Sorted.insertionSort_eq hsort]
      exact combineGo_id rest c hchain

/-- C7 counterexample: with an empty kept list (and a two-sample audio at
sample rate 2) the call falls back to a single whole-audio window `[0, 1]`,
which overlaps the excluded interval `[0, 1]` with positive duration — so
the operation can return a range overlapping an excluded range. -/
theorem exclude_segments_by_intervals_overlap_counterexample :
    (exclude_segments_by_intervals [0, 0] (some []) (some [((0 : ℚ), 1)]) 2).2
      = [((0 : ℚ), 1)] ∧
    posOverlap ((0 : ℚ), 1) ((0 : ℚ), 1) = true := by
  constructor
  · simp [exclude_segments_by_intervals, split_audio_by_intervals]
  · decide

/-- Witness for `exclude_segments_by_intervals_no_overlap` at a concrete
input: kept `[0,2]`, excluded `[1,3]` leaves piece `[0,1]`, which does not
overlap the excluded interval. -/
theorem exclude_segments_by_intervals_no_overlap_witness :
    posOverlap ((0 : ℚ), 1) ((1 : ℚ), 3) = false ∧
    (exclude_segments_by_intervals [0, 0] (some [((0 : ℚ), 2)]) (some []) 2).2
      = combine_intervals (sortByStart [((0 : ℚ), 2)]) 0 :=
  ⟨(exclude_segments_by_intervals_no_overlap [0, 0] 2 [(0, 2)] [(1, 3)]
      (by decide) (by decide)).1 (0, 1) (by decide) (1, 3) (by decide),
   (exclude_segments_by_intervals_no_overlap [0, 0] 2 [(0, 2)] [(1, 3)]
      (by decide) (by decide)).2.1⟩

/-! ## Segment splitter (toolkit_ops.py lines 1104-1423)

Python strings are modelled as `List Char` (Python indexing, slicing and
`len` agree with list positions of Unicode code points), words as the
`{word, start, end}` dicts that carry Whisper word timings, and segment
dicts as a structure with the keys the code reads; the Python `end` key is
called `stop` here because `end` is reserved in Lean. -/

/-- The space character, written once so character literals stay rare. -/
def spaceChar : Char := ' '

structure Word where
  word : List Char
  start : ℚ
  stop : ℚ
deriving DecidableEq, Repr

structure Segment where
  id : Option ℤ := none
  start : ℚ
  stop : ℚ
  text : List Char
  words : Option (List Word) := none
deriving DecidableEq, Repr

/-- The two shapes a splitter call can produce: the original segment dict
itself, or a list of new segment dicts. -/
inductive SplitResult
  | single (seg : Segment)
  | multiple (segs : List Segment)
deriving DecidableEq, Repr

/-- Python `str.find(c, start)` with slice-style index normalisation:
first position of `c` at or after `start`, else `-1`. -/
def pyFindCharFrom (t : List Char) (c : Char) (s : ℤ) : ℤ :=
  let s2 := pySliceNorm t.length s
  match (t.drop s2).findIdx? (fun x => x = c) with
  | some j => (s2 : ℤ) + j
  | none => -1

/-- Python `str.rfind(c, 0, e)` with slice-style index normalisation:
last position of `c` strictly before `e`, else `-1`. -/
def pyRFindCharBefore (t : List Char) (c : Char) (e : ℤ) : ℤ :=
  let e2 := pySliceNorm t.length e
  match (t.take e2).reverse.findIdx? (fun x => x = c) with
  | some j => ((t.take e2).length : ℤ) - 1 - j
  | none => -1

/-- Loop of the source's inner `find_nth` helper (lines 1177-1187): advance
to the next occurrence while `start >= 0 and n > 1`.  The `fuel` argument
only makes the recursion structural: the loop decrements `n` each round, so
`n.toNat` rounds suffice, and when the fuel runs out `n > 1` is false
anyway, so the exhausted case returns `start` exactly as the loop would. -/
def findNthGo (t : List Char) (c : Char) : ℕ → ℤ → ℤ → ℤ
  | 0, start, _ => start
  | fuel + 1, start, n =>
    if start ≥ 0 ∧ n > 1 then findNthGo t c fuel (pyFindCharFrom t c (start + 1)) (n - 1)
    else start

/-- `find_nth(haystack, needle, n)` with the always-true default `skip`:
the first probe starts at index 1. -/
def find_nth (t : List Char) (c : Char) (n : ℤ) : ℤ :=
  findNthGo t c n.toNat (pyFindCharFrom t c 1) n

/-- Python truthiness of an optional integer setting: `None` and `0` are
falsy. -/
def optTruthy : Option ℤ → Bool
  | none => false
  | some v => v != 0

/-- Word-migration loop shared by both splitters (lines 1212-1239): consume
the prefix of the word list whose cumulated character length stays within
`budget` (the length of the first part plus its synthetic leading space);
returns the consumed prefix and the remaining words.  Removing the consumed
words with `list.remove` always deletes the leading prefix, so the remains
are exactly the dropped suffix. -/
def wordBudgetSplit : List Word → ℕ → List Word × List Word
  | [], _ => ([], [])
  | w :: t, budget =>
    if w.word.length > budget then ([], w :: t)
    else
      let r := wordBudgetSplit t (budget - w.word.length)
      (w :: r.1, r.2)

/-- Ensure the Whisper leading-space convention: prepend a space when the
text does not already start with one (lines 1245-1246, 1385-1386). -/
def ensureSpace (t : List Char) : List Char :=
  if t.head? = some spaceChar then t else spaceChar :: t

/-- Build the new segment dict emitted for a split part: text with the
leading-space convention, start and end from the first and last migrated
word, falling back to the parent segment's bounds (lines 1248-1253,
1273-1278, 1388-1393, 1412-1417). -/
def mkSplitSeg (parent : Segment) (txt : List Char) (ws : List Word) : Segment :=
  { id := none,
    start := ((ws.head?).map Word.start).getD parent.start,
    stop := ((ws.getLast?).map Word.stop).getD parent.stop,
    text := ensureSpace txt,
    words := some ws }

/-- Emit the trailing part after the split loop ends (lines 1264-1281,
1404-1420): nothing when the remaining text is empty. -/
def emitRemainder (parent : Segment) (curText : List Char) (curWords : List Word)
    (acc : List Segment) : List Segment :=
  if curText = [] then acc else acc ++ [mkSplitSeg parent curText curWords]

/-- Python `'...'.replace('...', '…')`: leftmost non-overlapping
replacement of three dots by a single ellipsis character (line 1314). -/
def pyReplaceEllipsis : List Char → List Char
  | '.' :: '.' :: '.' :: rest => '…' :: pyReplaceEllipsis rest
  | c :: rest => c :: pyReplaceEllipsis rest
  | [] => []

/-- Inner scan of the punctuation splitter (lines 1325-1327): while the
character after position `i` is also a punctuation mark, advance.  `fuel`
only makes the recursion structural: `i` grows each round, so `t.length`
rounds suffice, and an exhausted fuel coincides with `i + 1 < t.length`
being false, where the loop stops with `i` as well. -/
def extendMarks (t : List Char) (marks : List Char) : ℕ → ℕ → ℕ
  | 0, i => i
  | fuel + 1, i =>
    if h : i + 1 < t.length then
      if t.get ⟨i + 1, h⟩ ∈ marks then extendMarks t marks fuel (i + 1) else i
    else i

/-- Main loop of `split_segment_on_punctuation_marks` (lines 1317-1420).
The split position is the smallest first-occurrence index over the marks
present in the text (`min(text.find(pm) ...)`), extended over consecutive
marks; the first part keeps the mark, the matching word prefix migrates by
cumulative character length, and the loop continues on the remainder.
`fuel` only makes the recursion structural: every round consumes at least
one character, so the caller's `text.length` rounds suffice, and with the
fuel exhausted the text is empty, where the loop condition is false and the
loop falls through to the trailing-part code exactly as the base case does. -/
def splitPunctGo (marks : List Char) (parent : Segment) :
    ℕ → List Char → List Word → List Segment → List Segment
  | 0, curText, curWords, acc => emitRemainder parent curText curWords acc
  | fuel + 1, curText, curWords, acc =>
    if curText.any (fun ch => ch ∈ marks) then
      let cands := (marks.filter fun pm => pm ∈ curText).map
        fun pm => curText.findIdx (fun x => x = pm)
      let i := extendMarks curText marks curText.length (cands.min?.getD 0)
      let first := curText.take (i + 1)
      let split := wordBudgetSplit curWords (first.length + 1)
      let acc2 := if first ≠ [] then acc ++ [mkSplitSeg parent first split.1] else acc
      splitPunctGo marks parent fuel (curText.drop (i + 1)) split.2 acc2
    else emitRemainder parent curText curWords acc

/-- `split_segment_on_punctuation_marks(segment, punctuation_marks)`
(lines 1286-1423): without word-level timings the segment itself is
returned; otherwise `...` is normalised to `…` and the loop produces a
list of parts. -/
def split_segment_on_punctuation_marks (segment : Segment) (marks : List Char) :
    SplitResult :=
  match segment.words with
  | none => .single segment
  | some [] => .single segment
  | some ws =>
    .multiple (splitPunctGo marks segment (pyReplaceEllipsis segment.text).length
      (pyReplaceEllipsis segment.text) ws [])

/-- Char-limit half of the `while` condition of
`split_segment_by_word_limits` (line 1146): a falsy limit short-circuits. -/
def limitCondCl (cl : Option ℤ) (len : ℕ) : Bool :=
  match cl with
  | some v => v != 0 && decide ((len : ℤ) > v)
  | none => false

/-- Word-limit half of the `while` condition (line 1147); the word count is
the count taken before the loop and never updated by the source. -/
def limitCondWl (wl : Option ℤ) (count0 : ℤ) : Bool :=
  match wl with
  | some v => v != 0 && decide (count0 > v)
  | none => false

/-- Split position of the char-limit branch (lines 1157-1165): the last
space before the limit, falling back to the first space after the limit. -/
def pyLastSpaceBefore (t : List Char) (cl : ℤ) : ℤ :=
  let lsi0 := pyRFindCharBefore t spaceChar cl
  if lsi0 = -1 then pyFindCharFrom t spaceChar cl else lsi0

/-- Main loop of `split_segment_by_word_limits` (lines 1146-1281).  With a
truthy character limit the split position is the last space before the
limit, falling back to the first space after it; otherwise the word-limit
branch reads `current_segment_text[0]`, which raises `IndexError` on an
empty string — modelled as `none` — and then looks for the
`segment_word_limit`-th space.  In both branches the space at the split
position is consumed: the first part is the text before it and the
remainder the text after it.  `fuel` only makes the recursion structural:
every round consumes at least one character, so the caller's `text.length`
rounds suffice, and an exhausted fuel coincides with an empty text, where
both find helpers return `-1` (so the char-limit branch emits the trailing
part) and the word-limit branch raises on `current_segment_text[0]` — which
is exactly what the base case returns. -/
def splitLimitsGo (parent : Segment) (wl cl : Option ℤ) (count0 : ℤ) :
    ℕ → List Char → List Word → List Segment → Option (List Segment)
  | 0, curText, curWords, acc =>
    if limitCondCl cl curText.length || limitCondWl wl count0 then
      if optTruthy cl then some (emitRemainder parent curText curWords acc)
      else none
    else some (emitRemainder parent curText curWords acc)
  | fuel + 1, curText, curWords, acc =>
    if limitCondCl cl curText.length || limitCondWl wl count0 then
      if optTruthy cl then
        if pyLastSpaceBefore curText (cl.getD 0) = -1 then
          some (emitRemainder parent curText curWords acc)
        else
          let lsi := pyLastSpaceBefore curText (cl.getD 0)
          let first := curText.take lsi.toNat
          let split := wordBudgetSplit curWords (first.length + 1)
          let acc2 := if first ≠ [] then acc ++ [mkSplitSeg parent first split.1] else acc
          splitLimitsGo parent wl cl count0 fuel (curText.drop (lsi.toNat + 1)) split.2 acc2
      else
        if curText = [] then none
        else
          if find_nth curText spaceChar (wl.getD 0) = -1 then
            some (emitRemainder parent curText curWords acc)
          else
            let lsi := find_nth curText spaceChar (wl.getD 0)
            let first := curText.take lsi.toNat
            let split := wordBudgetSplit curWords (first.length + 1)
            let acc2 := if first ≠ [] then acc ++ [mkSplitSeg parent first split.1] else acc
            splitLimitsGo parent wl cl count0 fuel (curText.drop (lsi.toNat + 1)) split.2 acc2
    else some (emitRemainder parent curText curWords acc)

/-- `split_segment_by_word_limits(segment, segment_word_limit,
segment_character_limit)` (lines 1104-1284): falsy limits or missing word
timings return the segment dict unchanged; otherwise the loop produces a
list of parts (or raises, modelled as `none`). -/
def split_segment_by_word_limits (segment : Segment) (wl cl : Option ℤ) :
    Option SplitResult :=
  if !(optTruthy wl) && !(optTruthy cl) then some (.single segment)
  else
    match segment.words with
    | none => some (.single segment)
    | some [] => some (.single segment)
    | some ws =>
      (splitLimitsGo segment wl cl (ws.length : ℤ) segment.text.length
        segment.text ws []).map .multiple

/-! ## Specifications of the Python find helpers -/

/-- Result shape of the Python find helpers: either `-1`, or a nonnegative
position at which the sought character sits. -/
def PyFindRes (t : List Char) (c : Char) (k : ℤ) : Prop :=
  k = -1 ∨ (0 ≤ k ∧ ∃ rest, t.drop k.toNat = c :: rest)

theorem pyFindCharFrom_res (t : List Char) (c : Char) (s : ℤ) :
    PyFindRes t c (pyFindCharFrom t c s) := by
  cases hf : (t.drop (pySliceNorm t.length s)).findIdx? (fun x => x = c) with
  | none =>
    left
    simp [pyFindCharFrom, hf]
  | some j =>
    right
    have hv : pyFindCharFrom t c s = ((pySliceNorm t.length s : ℤ) + j) := by
      simp [pyFindCharFrom, hf]
    obtain ⟨hlt, hp, -⟩ := List.findIdx?_eq_some_iff_getElem.mp hf
    rw [hv]
    refine ⟨by omega, t.drop (pySliceNorm t.length s + j + 1), ?_⟩
    have hn : ((pySliceNorm t.length s : ℤ) + j).toNat = pySliceNorm t.length s + j := by
      omega
    have hd : t.drop (pySliceNorm t.length s + j) = (t.drop (pySliceNorm t.length s)).drop j := by
      rw [List.drop_drop]
    rw [hn, hd, List.drop_eq_getElem_cons hlt]
    congr 1
    · exact of_decide_eq_true hp
    · rw [List.drop_drop, Nat.add_assoc]

theorem pyRFindCharBefore_res (t : List Char) (c : Char) (e : ℤ) :
    PyFindRes t c (pyRFindCharBefore t c e) := by
  cases hf : (t.take (pySliceNorm t.length e)).reverse.findIdx? (fun x => x = c) with
  | none =>
    left
    simp [pyRFindCharBefore, hf]
  | some j =>
    right
    have hv : pyRFindCharBefore t c e
        = (((t.take (pySliceNorm t.length e)).length : ℤ) - 1 - j) := by
      simp [pyRFindCharBefore, hf]
    obtain ⟨hlt, hp, -⟩ := List.findIdx?_eq_some_iff_getElem.mp hf
    have hjT : j < (t.take (pySliceNorm t.length e)).length := by simpa using hlt
    have hTlen : (t.take (pySliceNorm t.length e)).length ≤ t.length := by
      rw [List.length_take]
      omega
    have hp2 : (t.take (pySliceNorm t.length e)).reverse[j] = c := of_decide_eq_true hp
    rw [List.getElem_reverse, List.getElem_take] at hp2
    rw [hv]
    have hk : ((((t.take (pySliceNorm t.length e)).length : ℤ) - 1 - j)).toNat
        = (t.take (pySliceNorm t.length e)).length - 1 - j := by omega
    have hkt : (t.take (pySliceNorm t.length e)).length - 1 - j < t.length := by omega
    refine ⟨by omega, t.drop ((t.take (pySliceNorm t.length e)).length - 1 - j + 1), ?_⟩
    rw [hk, List.drop_eq_getElem_cons hkt]
    exact congrArg (· :: _) hp2

theorem pyLastSpaceBefore_res (t : List Char) (cl : ℤ) :
    PyFindRes t spaceChar (pyLastSpaceBefore t cl) := by
  unfold pyLastSpaceBefore
  by_cases h : pyRFindCharBefore t spaceChar cl = -1
  · simpa [h] using pyFindCharFrom_res t spaceChar cl
  · simpa [h] using pyRFindCharBefore_res t spaceChar cl

theorem findNthGo_res (t : List Char) (c : Char) :
    ∀ (fuel : ℕ) (start n : ℤ), PyFindRes t c start →
      PyFindRes t c (findNthGo t c fuel start n)
  | 0, start, n, h => h
  | fuel + 1, start, n, h => by
    rw [findNthGo]
    split
    · exact findNthGo_res t c fuel _ _ (pyFindCharFrom_res t c (start + 1))
    · exact h

theorem find_nth_res (t : List Char) (c : Char) (n : ℤ) :
    PyFindRes t c (find_nth t c n) :=
  findNthGo_res t c n.toNat _ n (pyFindCharFrom_res t c 1)

/-- A find result different from `-1` decomposes the text around the found
character. -/
theorem PyFindRes.decomp {t : List Char} {c : Char} {k : ℤ}
    (h : PyFindRes t c k) (hne : k ≠ -1) :
    t = t.take k.toNat ++ c :: t.drop (k.toNat + 1) := by
  rcases h with rfl | ⟨hk0, rest, hdrop⟩
  · exact absurd rfl hne
  · have hlt : k.toNat < t.length := by
      by_contra hge
      rw [List.drop_eq_nil_of_le (by omega)] at hdrop
      exact List.cons_ne_nil _ _ hdrop.symm
    have h2 : t[k.toNat] :: t.drop (k.toNat + 1) = c :: rest := by
      rw [← List.drop_eq_getElem_cons hlt, hdrop]
    have hc : t[k.toNat] = c := (List.cons_eq_cons.mp h2).1
    conv_lhs => rw [← List.take_append_drop k.toNat t]
    rw [List.drop_eq_getElem_cons hlt, hc]

/-! ## Text decomposition of the splitters -/

theorem intercalate_single_piece (s x : List Char) : List.intercalate s [x] = x := by
  simp [List.intercalate]

theorem intercalate_cons_ne (s x : List Char) (ps : List (List Char)) (h : ps ≠ []) :
    List.intercalate s (x :: ps) = x ++ s ++ List.intercalate s ps := by
  cases ps with
  | nil => exact absurd rfl h
  | cons y t => simp [List.intercalate]

theorem emitRemainder_append (parent : Segment) (t : List Char) (w : List Word)
    (acc : List Segment) :
    emitRemainder parent t w acc = acc ++ emitRemainder parent t w [] := by
  unfold emitRemainder
  split <;> simp

theorem splitPunctGo_append (marks : List Char) (parent : Segment) :
    ∀ (fuel : ℕ) (t : List Char) (w : List Word) (acc : List Segment),
      splitPunctGo marks parent fuel t w acc
        = acc ++ splitPunctGo marks parent fuel t w []
  | 0, t, w, acc => emitRemainder_append parent t w acc
  | fuel + 1, t, w, acc => by
    by_cases hmark : (t.any fun ch => ch ∈ marks) = true
    · conv_lhs => rw [splitPunctGo]
      conv_rhs => rw [splitPunctGo]
      simp only [if_pos hmark]
      conv_rhs => rw [splitPunctGo_append marks parent fuel _ _ _]
      conv_lhs => rw [splitPunctGo_append marks parent fuel _ _ _]
      split_ifs <;> simp
    · conv_lhs => rw [splitPunctGo]
      conv_rhs => rw [splitPunctGo]
      simp only [if_neg hmark]
      exact emitRemainder_append parent t w acc

theorem pyLastSpaceBefore_nil (e : ℤ) :
    pyLastSpaceBefore ([] : List Char) e = -1 := by
  simp [pyLastSpaceBefore, pyFindCharFrom, pyRFindCharBefore]

theorem splitLimitsGo_append (parent : Segment) (wl cl : Option ℤ) (count0 : ℤ) :
    ∀ (fuel : ℕ) (t : List Char) (w : List Word) (acc : List Segment),
      splitLimitsGo parent wl cl count0 fuel t w acc
        = (splitLimitsGo parent wl cl count0 fuel t w []).map (fun r => acc ++ r)
  | 0, t, w, acc => by
    rw [splitLimitsGo, splitLimitsGo]
    by_cases hcond : (limitCondCl cl t.length || limitCondWl wl count0) = true
    · rw [if_pos hcond, if_pos hcond]
      by_cases hcl : optTruthy cl = true
      · rw [if_pos hcl, if_pos hcl]
        rw [emitRemainder_append parent t w acc]
        simp
      · rw [if_neg hcl, if_neg hcl]
        simp
    · rw [if_neg hcond, if_neg hcond]
      rw [emitRemainder_append parent t w acc]
      simp
  | fuel + 1, t, w, acc => by
    conv_lhs => rw [splitLimitsGo]
    conv_rhs => rw [splitLimitsGo]
    by_cases hcond : (limitCondCl cl t.length || limitCondWl wl count0) = true
    · simp only [if_pos hcond]
      by_cases hcl : optTruthy cl = true
      · simp only [if_pos hcl]
        by_cases hn : pyLastSpaceBefore t (cl.getD 0) = -1
        · simp only [if_pos hn]
          rw [emitRemainder_append parent t w acc]
          simp
        · simp only [if_neg hn]
          conv_rhs => rw [splitLimitsGo_append parent wl cl count0 fuel _ _ _]
          conv_lhs => rw [splitLimitsGo_append parent wl cl count0 fuel _ _ _]
          cases splitLimitsGo parent wl cl count0 fuel
              (t.drop ((pyLastSpaceBefore t (cl.getD 0)).toNat + 1))
              (wordBudgetSplit w
                ((t.take (pyLastSpaceBefore t (cl.getD 0)).toNat).length + 1)).2
              [] with
          | none => simp
          | some r => split_ifs <;> simp
      · simp only [if_neg hcl]
        by_cases hemp : t = []
        · simp only [if_pos hemp]
          simp
        · simp only [if_neg hemp]
          by_cases hn : find_nth t spaceChar (wl.getD 0) = -1
          · simp only [if_pos hn]
            rw [emitRemainder_append parent t w acc]
            simp
          · simp only [if_neg hn]
            conv_rhs => rw [splitLimitsGo_append parent wl cl count0 fuel _ _ _]
            conv_lhs => rw [splitLimitsGo_append parent wl cl count0 fuel _ _ _]
            cases splitLimitsGo parent wl cl count0 fuel
                (t.drop ((find_nth t spaceChar (wl.getD 0)).toNat + 1))
                (wordBudgetSplit w
                  ((t.take (find_nth t spaceChar (wl.getD 0)).toNat).length + 1)).2
                [] with
            | none => simp
            | some r => split_ifs <;> simp
    · simp only [if_neg hcond]
      rw [emitRemainder_append parent t w acc]
      simp

theorem mkSplitSeg_text (parent : Segment) (txt : List Char) (ws : List Word) :
    (mkSplitSeg parent txt ws).text = ensureSpace txt := rfl

theorem emitRemainder_pieces (parent : Segment) (t : List Char) (w : List Word) :
    ∃ pieces : List (List Char), pieces ≠ [] ∧ pieces.flatten = t ∧
      List.intercalate [spaceChar] pieces = t ∧
      (emitRemainder parent t w []).map Segment.text
        = (pieces.filter (fun p => p ≠ [])).map ensureSpace := by
  refine ⟨[t], by simp, by simp, intercalate_single_piece _ _, ?_⟩
  unfold emitRemainder
  by_cases ht : t = []
  · simp [ht]
  · simp [ht, mkSplitSeg_text]

theorem splitPunctGo_pieces (marks : List Char) (parent : Segment) :
    ∀ (fuel : ℕ) (t : List Char) (w : List Word),
      ∃ pieces : List (List Char), pieces ≠ [] ∧ pieces.flatten = t ∧
        (splitPunctGo marks parent fuel t w []).map Segment.text
          = (pieces.filter (fun p => p ≠ [])).map ensureSpace
  | 0, t, w => by
    obtain ⟨ps, h1, h2, -, h4⟩ := emitRemainder_pieces parent t w
    exact ⟨ps, h1, h2, h4⟩
  | fuel + 1, t, w => by
    by_cases hmark : (t.any fun ch => ch ∈ marks) = true
    · have hnil : t ≠ [] := by
        rcases List.any_eq_true.mp hmark with ⟨x, hx, -⟩
        exact List.ne_nil_of_mem hx
      obtain ⟨ps, hpne, hflat, hmap⟩ :=
        splitPunctGo_pieces marks parent fuel
          (t.drop (extendMarks t marks t.length
            (((marks.filter fun pm => pm ∈ t).map
              fun pm => t.findIdx (fun x => x = pm)).min?.getD 0) + 1))
          (wordBudgetSplit w
            ((t.take (extendMarks t marks t.length
              (((marks.filter fun pm => pm ∈ t).map
                fun pm => t.findIdx (fun x => x = pm)).min?.getD 0) + 1)).length + 1)).2
      have hfirst : t.take (extendMarks t marks t.length
          (((marks.filter fun pm => pm ∈ t).map
            fun pm => t.findIdx (fun x => x = pm)).min?.getD 0) + 1) ≠ [] := by
        simp [List.take_eq_nil_iff, hnil]
      refine ⟨t.take (extendMarks t marks t.length
          (((marks.filter fun pm => pm ∈ t).map
            fun pm => t.findIdx (fun x => x = pm)).min?.getD 0) + 1) :: ps,
        List.cons_ne_nil _ _, ?_, ?_⟩
      · rw [List.flatten_cons, hflat, List.take_append_drop]
      · rw [splitPunctGo, if_pos hmark]
        simp only
        rw [splitPunctGo_append marks parent fuel _ _ _, if_pos hfirst]
        rw [List.filter_cons_of_pos (by simpa using hfirst)]
        simp only [List.nil_append, List.map_append, List.map_cons, mkSplitSeg_text,
          List.map_nil, hmap]
        simp
    · obtain ⟨ps, h1, h2, -, h4⟩ := emitRemainder_pieces parent t w
      refine ⟨ps, h1, h2, ?_⟩
      rw [splitPunctGo, if_neg hmark]
      exact h4

theorem splitLimitsGo_pieces (parent : Segment) (wl cl : Option ℤ) (count0 : ℤ) :
    ∀ (fuel : ℕ) (t : List Char) (w : List Word) (res : List Segment),
      splitLimitsGo parent wl cl count0 fuel t w [] = some res →
      ∃ pieces : List (List Char), pieces ≠ [] ∧
        List.intercalate [spaceChar] pieces = t ∧
        res.map Segment.text = (pieces.filter (fun p => p ≠ [])).map ensureSpace
  | 0, t, w, res, hres => by
    rw [splitLimitsGo] at hres
    obtain ⟨ps, h1, -, h3, h4⟩ := emitRemainder_pieces parent t w
    by_cases hcond : (limitCondCl cl t.length || limitCondWl wl count0) = true
    · rw [if_pos hcond] at hres
      by_cases hcl : optTruthy cl = true
      · rw [if_pos hcl] at hres
        obtain rfl : emitRemainder parent t w [] = res := Option.some.inj hres
        exact ⟨ps, h1, h3, h4⟩
      · rw [if_neg hcl] at hres
        exact absurd hres (by simp)
    · rw [if_neg hcond] at hres
      obtain rfl : emitRemainder parent t w [] = res := Option.some.inj hres
      exact ⟨ps, h1, h3, h4⟩
  | fuel + 1, t, w, res, hres => by
    rw [splitLimitsGo] at hres
    by_cases hcond : (limitCondCl cl t.length || limitCondWl wl count0) = true
    · rw [if_pos hcond] at hres
      by_cases hcl : optTruthy cl = true
      · rw [if_pos hcl] at hres
        by_cases hn : pyLastSpaceBefore t (cl.getD 0) = -1
        · rw [if_pos hn] at hres
          obtain rfl : emitRemainder parent t w [] = res := Option.some.inj hres
          obtain ⟨ps, h1, -, h3, h4⟩ := emitRemainder_pieces parent t w
          exact ⟨ps, h1, h3, h4⟩
        · rw [if_neg hn] at hres
          simp only at hres
          rw [splitLimitsGo_append parent wl cl count0 fuel _ _ _] at hres
          cases hq : splitLimitsGo parent wl cl count0 fuel
              (t.drop ((pyLastSpaceBefore t (cl.getD 0)).toNat + 1))
              (wordBudgetSplit w
                ((t.take (pyLastSpaceBefore t (cl.getD 0)).toNat).length + 1)).2 [] with
          | none => rw [hq] at hres; exact absurd hres (by simp)
          | some res2 =>
            rw [hq] at hres
            simp only [Option.map_some', Option.some.injEq] at hres
            obtain ⟨ps, hpne, hinter, hmap⟩ :=
              splitLimitsGo_pieces parent wl cl count0 fuel _ _ res2 hq
            refine ⟨t.take (pyLastSpaceBefore t (cl.getD 0)).toNat :: ps,
              List.cons_ne_nil _ _, ?_, ?_⟩
            · rw [intercalate_cons_ne _ _ _ hpne, hinter]
              have hdec := (pyLastSpaceBefore_res t (cl.getD 0)).decomp hn
              conv_rhs => rw [hdec]
              simp
            · rw [← hres]
              by_cases hfe : t.take (pyLastSpaceBefore t (cl.getD 0)).toNat = []
              · rw [List.filter_cons_of_neg (by simp [hfe]), if_neg (not_not_intro hfe)]
                simpa using hmap
              · rw [List.filter_cons_of_pos (by simp [hfe]), if_pos hfe]
                simp [mkSplitSeg_text, hmap]
      · rw [if_neg hcl] at hres
        by_cases hemp : t = []
        · rw [if_pos hemp] at hres
          exact absurd hres (by simp)
        · rw [if_neg hemp] at hres
          by_cases hn : find_nth t spaceChar (wl.getD 0) = -1
          · rw [if_pos hn] at hres
            obtain rfl : emitRemainder parent t w [] = res := Option.some.inj hres
            obtain ⟨ps, h1, -, h3, h4⟩ := emitRemainder_pieces parent t w
            exact ⟨ps, h1, h3, h4⟩
          · rw [if_neg hn] at hres
            simp only at hres
            rw [splitLimitsGo_append parent wl cl count0 fuel _ _ _] at hres
            cases hq : splitLimitsGo parent wl cl count0 fuel
                (t.drop ((find_nth t spaceChar (wl.getD 0)).toNat + 1))
                (wordBudgetSplit w
                  ((t.take (find_nth t spaceChar (wl.getD 0)).toNat).length + 1)).2 [] with
            | none => rw [hq] at hres; exact absurd hres (by simp)
            | some res2 =>
              rw [hq] at hres
              simp only [Option.map_some', Option.some.injEq] at hres
              obtain ⟨ps, hpne, hinter, hmap⟩ :=
                splitLimitsGo_pieces parent wl cl count0 fuel _ _ res2 hq
              refine ⟨t.take (find_nth t spaceChar (wl.getD 0)).toNat :: ps,
                List.cons_ne_nil _ _, ?_, ?_⟩
              · rw [intercalate_cons_ne _ _ _ hpne, hinter]
                have hdec := (find_nth_res t spaceChar (wl.getD 0)).decomp hn
                conv_rhs => rw [hdec]
                simp
              · rw [← hres]
                by_cases hfe : t.take (find_nth t spaceChar (wl.getD 0)).toNat = []
                · rw [List.filter_cons_of_neg (by simp [hfe]), if_neg (not_not_intro hfe)]
                  simpa using hmap
                · rw [List.filter_cons_of_pos (by simp [hfe]), if_pos hfe]
                  simp [mkSplitSeg_text, hmap]
    · rw [if_neg hcond] at hres
      obtain rfl : emitRemainder parent t w [] = res := Option.some.inj hres
      obtain ⟨ps, h1, -, h3, h4⟩ := emitRemainder_pieces parent t w
      exact ⟨ps, h1, h3, h4⟩

/-! ## Claims C4 and C10 -/

/-- Strip one leading space from a part's text — the reading of "stripping
the synthetic leading space" under which the original claim is tested. -/
def stripLeadingSpace : List Char → List Char
  | [] => []
  | c :: t => if c = spaceChar then t else c :: t

/-- The word timings of the specification's worked example. -/
def demoWords : List Word :=
  [⟨ "Hello".toList, 0, 1⟩, ⟨ " world.".toList, 1, 2⟩, ⟨ " How".toList, 2, 3⟩,
   ⟨ " are".toList, 3, 4⟩, ⟨ " you?".toList, 4, 5⟩]

/-- The specification's worked example segment. -/
def demoSegment : Segment :=
  { start := 0, stop := 5, text := "Hello world. How are you?".toList,
    words := some demoWords }

/-- C4 (amended): whenever a splitter actually splits, the returned texts
are the consecutive pieces of the source text, each emitted with a space
prepended when the piece does not already start with one (empty pieces are
dropped).  For the punctuation splitter the reconstructed text is the
original text with `...` normalised to `…`; for the limit splitter the
pieces are rejoined with the single space consumed at each split position.
Stripping one leading space from every part and concatenating does not in
general reproduce the original text: see
`split_segment_round_trip_counterexample`. -/
theorem split_segment_text_decomposition (s : Segment) (marks : List Char)
    (wl cl : Option ℤ) :
    (∀ ws, s.words = some ws → ws ≠ [] →
      ∃ parts pieces, split_segment_on_punctuation_marks s marks = .multiple parts ∧
        List.flatten pieces = pyReplaceEllipsis s.text ∧
        parts.map Segment.text = (pieces.filter (fun p => p ≠ [])).map ensureSpace) ∧
    (∀ parts, split_segment_by_word_limits s wl cl = some (.multiple parts) →
      ∃ pieces, List.intercalate [spaceChar] pieces = s.text ∧
        parts.map Segment.text = (pieces.filter (fun p => p ≠ [])).map ensureSpace) := by
  constructor
  · intro ws hws hne
    obtain ⟨ps, hpne, hflat, hmap⟩ :=
      splitPunctGo_pieces marks s (pyReplaceEllipsis s.text).length
        (pyReplaceEllipsis s.text) ws
    refine ⟨_, ps, ?_, hflat, hmap⟩
    unfold split_segment_on_punctuation_marks
    rw [hws]
    cases ws with
    | nil => exact absurd rfl hne
    | cons w0 ws2 => rfl
  · intro parts hres
    by_cases hfal : (!(optTruthy wl) && !(optTruthy cl)) = true
    · have hcall : split_segment_by_word_limits s wl cl = some (.single s) := by
        unfold split_segment_by_word_limits
        rw [if_pos hfal]
      rw [hcall] at hres
      exact absurd (Option.some.inj hres) (by simp)
    · cases hws : s.words with
      | none =>
        have hcall : split_segment_by_word_limits s wl cl = some (.single s) := by
          unfold split_segment_by_word_limits
          rw [if_neg hfal, hws]
        rw [hcall] at hres
        exact absurd (Option.some.inj hres) (by simp)
      | some ws =>
        cases ws with
        | nil =>
          have hcall : split_segment_by_word_limits s wl cl = some (.single s) := by
            unfold split_segment_by_word_limits
            rw [if_neg hfal, hws]
          rw [hcall] at hres
          exact absurd (Option.some.inj hres) (by simp)
        | cons w0 ws2 =>
          have hcall : split_segment_by_word_limits s wl cl
              = (splitLimitsGo s wl cl (((w0 :: ws2).length : ℕ) : ℤ)
                  s.text.length s.text (w0 :: ws2) []).map SplitResult.multiple := by
            unfold split_segment_by_word_limits
            rw [if_neg hfal, hws]
          rw [hcall] at hres
          cases hq : splitLimitsGo s wl cl (((w0 :: ws2).length : ℕ) : ℤ)
              s.text.length s.text (w0 :: ws2) [] with
          | none =>
            rw [hq] at hres
            exact absurd hres (by simp)
          | some res =>
            rw [hq] at hres
            have hrp : res = parts := by
              simpa using hres
            subst hrp
            obtain ⟨ps, hpne, hinter, hmap⟩ :=
              splitLimitsGo_pieces s wl cl _ s.text.length s.text (w0 :: ws2) res hq
            exact ⟨ps, hinter, hmap⟩

/-- C4 counterexample: on the specification's own worked example, stripping
one leading space from each returned part and concatenating yields
`"Hello world.How are you?"`, not the original text — the space separating
the two sentences was the real text's space, not a synthetic one. -/
theorem split_segment_round_trip_counterexample :
    (match split_segment_on_punctuation_marks demoSegment ['.', '!', '?', '…'] with
      | .multiple parts => (parts.map fun p => stripLeadingSpace p.text).flatten
      | .single sg => sg.text) ≠ demoSegment.text := by
  decide

/-- Witness for `split_segment_text_decomposition` at the specification's
worked example. -/
theorem split_segment_text_decomposition_witness :
    ∃ parts pieces,
      split_segment_on_punctuation_marks demoSegment ['.', '!', '?', '…']
        = .multiple parts ∧
      List.flatten pieces = pyReplaceEllipsis demoSegment.text ∧
      parts.map Segment.text = (pieces.filter (fun p => p ≠ [])).map ensureSpace :=
  (split_segment_text_decomposition demoSegment ['.', '!', '?', '…'] none none).1
    demoWords rfl (by decide)

/-- C10: both splitters return the original segment dict itself when the
segment has no word-level timings (and, for the limit splitter, when no
truthy limit is given), and a list of segment dicts whenever splitting
proceeds — so callers receive either a dict or a list from the same
operation. -/
theorem split_segment_return_shapes (s : Segment) (marks : List Char)
    (wl cl : Option ℤ) :
    ((s.words = none ∨ s.words = some []) →
      split_segment_on_punctuation_marks s marks = .single s) ∧
    ((optTruthy wl = false ∧ optTruthy cl = false) →
      split_segment_by_word_limits s wl cl = some (.single s)) ∧
    ((s.words = none ∨ s.words = some []) →
      split_segment_by_word_limits s wl cl = some (.single s)) ∧
    (∀ ws, s.words = some ws → ws ≠ [] →
      ∃ parts, split_segment_on_punctuation_marks s marks = .multiple parts) ∧
    (∀ ws r, s.words = some ws → ws ≠ [] → (optTruthy wl || optTruthy cl) = true →
      split_segment_by_word_limits s wl cl = some r → ∃ parts, r = .multiple parts) := by
  refine ⟨?_, ?_, ?_, ?_, ?_⟩
  · intro h
    unfold split_segment_on_punctuation_marks
    rcases h with h | h <;> rw [h]
  · intro h
    unfold split_segment_by_word_limits
    rw [if_pos (by simp [h.1, h.2])]
  · intro h
    unfold split_segment_by_word_limits
    by_cases hfal : (!(optTruthy wl) && !(optTruthy cl)) = true
    · rw [if_pos hfal]
    · rw [if_neg hfal]
      rcases h with h | h <;> rw [h]
  · intro ws hws hne
    unfold split_segment_on_punctuation_marks
    rw [hws]
    cases ws with
    | nil => exact absurd rfl hne
    | cons w0 ws2 => exact ⟨_, rfl⟩
  · intro ws r hws hne htru hres
    have hfal : ¬ ((!(optTruthy wl) && !(optTruthy cl)) = true) := by
      rcases Bool.or_eq_true_iff.mp htru with h | h <;> simp [h]
    cases ws with
    | nil => exact absurd rfl hne
    | cons w0 ws2 =>
      have hcall : split_segment_by_word_limits s wl cl
          = (splitLimitsGo s wl cl (((w0 :: ws2).length : ℕ) : ℤ)
              s.text.length s.text (w0 :: ws2) []).map SplitResult.multiple := by
        unfold split_segment_by_word_limits
        rw [if_neg hfal, hws]
      rw [hcall] at hres
      cases hq : splitLimitsGo s wl cl (((w0 :: ws2).length : ℕ) : ℤ)
          s.text.length s.text (w0 :: ws2) [] with
      | none =>
        rw [hq] at hres
        exact absurd hres (by simp)
      | some res =>
        rw [hq] at hres
        exact ⟨res, (Option.some.inj hres).symm⟩

/-- Witness for `split_segment_return_shapes` at a concrete segment with no
word timings. -/
theorem split_segment_return_shapes_witness :
    split_segment_on_punctuation_marks
        { start := 0, stop := 1, text := [], words := none } ['.']
      = .single { start := 0, stop := 1, text := [], words := none } :=
  (split_segment_return_shapes { start := 0, stop := 1, text := [], words := none }
    ['.'] none none).1 (Or.inl rfl)

/-! ## Whisper result post-processing (toolkit_ops.py lines 1425-1591)

An entry of `result['segments']` is either a segment dict — modelled with a
string `text` — or some other Python value.  `pyStr` stands for a plain
string in the list (the shape that actually arises, e.g. from dict keys
leaking through `list.extend`); a dict whose `text` key is missing or not a
string behaves in the post-processing loop exactly like a non-dict entry
(removed and skipped over), so those shapes are not distinguished here. -/

inductive SegEntry
  | pyStr (s : List Char)
  | dict (seg : Segment)
deriving DecidableEq, Repr

/-- An entry survives the two validity checks of the loop (lines 1546 and
1556): it is a dict and its text is a non-empty string. -/
def segEntryValid : SegEntry → Bool
  | .pyStr _ => false
  | .dict s => s.text ≠ []

/-- Python `'words' in segments[0]` for the guard on line 1436; on a
non-dict string entry the membership test is a substring test, which is
false for the probe key. -/
def hasWordsKey : SegEntry → Bool
  | .pyStr _ => false
  | .dict s => s.words ≠ none

/-- The keyword options read by `split_segments` and
`post_process_whisper_result`; integer limits are modelled after the
source's `int(...)` validation, the gap threshold after its `float(...)`
validation (falsy or unparsable values become `none`). -/
structure PostOptions where
  splitOnPunctuationMarks : Bool := false
  punctuationMarks : List Char := ['.', '!', '?', '…']
  maxWordsPerSegment : Option ℤ := none
  maxCharsPerSegment : Option ℤ := none
  preventShortGaps : Option ℚ := none
  postRemoveWordTimestamps : Bool := false
deriving DecidableEq, Repr

/-- What `new_segments.extend(resulting_segment)` appends (lines 1462 and
1504): the list of parts when the splitter split, but the KEYS of the dict
when the splitter returned the segment dict itself — Python's
`list.extend` iterates a dict by key. -/
def splitResultEntries : SplitResult → List SegEntry
  | .single _ =>
    [.pyStr "id".toList, .pyStr "start".toList, .pyStr "end".toList,
     .pyStr "text".toList, .pyStr "words".toList]
  | .multiple l => l.map .dict

/-- Applying the punctuation splitter to one list entry inside
`split_segments`; a string entry is returned as itself by the splitter's
no-words guard and then `extend` spreads it into its characters. -/
def entryPunctParts (marks : List Char) : SegEntry → List SegEntry
  | .dict s => splitResultEntries (split_segment_on_punctuation_marks s marks)
  | .pyStr str => str.map fun c => .pyStr [c]

/-- Applying the limit splitter to one list entry inside `split_segments`;
`none` propagates the `IndexError` the word-limit branch can raise. -/
def entryLimitParts (wl cl : Option ℤ) : SegEntry → Option (List SegEntry)
  | .dict s => (split_segment_by_word_limits s wl cl).map splitResultEntries
  | .pyStr str => some (str.map fun c => .pyStr [c])

/-- `split_segments(segments, **kwargs)` (lines 1425-1509): return the list
unchanged when it is empty or its first entry has no word timings;
otherwise run the optional punctuation pass and then the optional
word/character-limit pass, flattening each splitter result into the new
list.  `none` models an uncaught exception from the limit splitter. -/
def split_segments (segs : List SegEntry) (opts : PostOptions) :
    Option (List SegEntry) :=
  match segs with
  | [] => some segs
  | e :: _ =>
    if ¬ hasWordsKey e then some segs
    else
      let segs1 := if opts.splitOnPunctuationMarks then
          segs.flatMap (entryPunctParts opts.punctuationMarks)
        else segs
      if opts.maxCharsPerSegment ≠ none ∨ opts.maxWordsPerSegment ≠ none then
        (segs1.mapM (entryLimitParts opts.maxWordsPerSegment
          opts.maxCharsPerSegment)).map List.flatten
      else some segs1

/-- Replace the `end` field of the element at position `n` (the effect of
`new_result_segments[-2]['end'] = segment['start']` on line 1582). -/
def setStop : List Segment → ℕ → ℚ → List Segment
  | [], _, _ => []
  | s :: t, 0, v => {s with stop := v} :: t
  | s :: t, n + 1, v => s :: setStop t n v

/-- `del segment['words']` under the `post_remove_word_timestamps` option
(lines 1564-1566); deleting an absent key is skipped by the source, with the
same resulting dict. -/
def stripWords (rmw : Bool) (s : Segment) : Segment :=
  if rmw then {s with words := none} else s

/-- The gap-filling adjustment (lines 1572-1582): when a threshold is active
and a previous kept segment exists, a new start `v` closer than the
threshold to the previous end `pe` overwrites the end of the next-to-last
accumulated segment with `v`. -/
def gapAdjust (th pe : Option ℚ) (v : ℚ) (acc2 : List Segment) : List Segment :=
  match pe, th with
  | some p, some t =>
    if v - p < t then setStop acc2 (acc2.length - 2) v else acc2
  | _, _ => acc2

/-- Main housekeeping loop of `post_process_whisper_result`
(lines 1541-1589).  The loop mirrors Python's `for n, segment in
enumerate(result['segments'])` with in-loop `remove` calls: the iterator
keeps a position `i` into the current list `l`; an invalid entry is removed
from `l` (first occurrence by value) while the position still advances,
which skips the element that slides into the freed slot.  A kept dict
first has its word timestamps deleted when requested, is appended to the
accumulator, and — when a gap threshold is active and the previous kept
segment ended less than the threshold before this one starts — the
previous accumulated segment's end is overwritten with this start.  `fuel`
only makes the recursion structural: `l.length - i` shrinks every round, so
the caller's `l.length` rounds suffice, and the fuel runs out only with
`i ≥ l.length`, where the loop is over and the accumulator is the result. -/
def postLoop (th : Option ℚ) (rmw : Bool) :
    ℕ → List SegEntry → ℕ → List Segment → Option ℚ → List Segment
  | 0, _, _, acc, _ => acc
  | fuel + 1, l, i, acc, prevEnd =>
    if h : i < l.length then
      match l.get ⟨i, h⟩ with
      | .pyStr str => postLoop th rmw fuel (l.erase (.pyStr str)) (i + 1) acc prevEnd
      | .dict s =>
        if s.text = [] then postLoop th rmw fuel (l.erase (.dict s)) (i + 1) acc prevEnd
        else
          postLoop th rmw fuel l (i + 1)
            (gapAdjust th prevEnd (stripWords rmw s).start (acc ++ [stripWords rmw s]))
            (some (stripWords rmw s).stop)
    else acc

/-- The segment list computed by `post_process_whisper_result` for a
present `segments` key: the split passes followed by the housekeeping
loop; `none` models an uncaught splitter exception. -/
def processSegments (opts : PostOptions) (entries : List SegEntry) :
    Option (List Segment) :=
  (split_segments entries opts).map fun segs2 =>
    postLoop opts.preventShortGaps opts.postRemoveWordTimestamps
      segs2.length segs2 0 [] none

/-- Terminal status values a backend result can carry: the core treats
`canceled` and `failed` as terminal outcomes copied to the caller. -/
inductive TStatus
  | canceled
  | failed
deriving DecidableEq, Repr

/-- A whisper call result: the segments list (absent when the backend
returned no `segments` key), the detected language string and an optional
terminal status. -/
structure WhisperResult where
  segments : Option (List SegEntry) := some []
  language : Option (List Char) := none
  status : Option TStatus := none
deriving DecidableEq, Repr

/-- `post_process_whisper_result(audio, result, **kwargs)`
(lines 1511-1591): results without a `segments` key pass through; otherwise
the segments are split and housekept, and the rest of the result dict is
kept. -/
def post_process_whisper_result (r : WhisperResult) (opts : PostOptions) :
    Option WhisperResult :=
  match r.segments with
  | none => some r
  | some segs =>
    match processSegments opts segs with
    | none => none
    | some ks => some {r with segments := some (ks.map SegEntry.dict)}

/-- The spec's description of the gap-filling pass, as a standalone forward
scan over the kept segments: whenever the next segment starts less than the
threshold after the previous one ends, only the previous segment's end is
moved to the next segment's start. -/
def gapFill (t : ℚ) : List Segment → List Segment
  | [] => []
  | [s] => [s]
  | s :: s2 :: rest =>
    (if s2.start - s.stop < t then {s with stop := s2.start} else s) ::
      gapFill t (s2 :: rest)

/-- Gap filling only when a threshold is configured. -/
def gapFillOpt : Option ℚ → List Segment → List Segment
  | none, ks => ks
  | some t, ks => gapFill t ks

/-- The kept segments of the housekeeping loop, described directly: a valid
entry is kept (with words stripped when requested); an invalid entry is
dropped TOGETHER with the entry right after it, because the in-loop removal
slides that entry into the freed slot and the iterator jumps over it. -/
def skipSpec (rmw : Bool) : List SegEntry → List Segment
  | [] => []
  | [.pyStr _] => []
  | [.dict s] => if s.text = [] then [] else [stripWords rmw s]
  | .pyStr _ :: _ :: rest => skipSpec rmw rest
  | .dict s :: e2 :: rest =>
    if s.text = [] then skipSpec rmw rest
    else stripWords rmw s :: skipSpec rmw (e2 :: rest)

lemma stripWords_start (rmw : Bool) (s : Segment) :
    (stripWords rmw s).start = s.start := by
  unfold stripWords; split <;> rfl

lemma stripWords_stop (rmw : Bool) (s : Segment) :
    (stripWords rmw s).stop = s.stop := by
  unfold stripWords; split <;> rfl

lemma stripWords_text (rmw : Bool) (s : Segment) :
    (stripWords rmw s).text = s.text := by
  unfold stripWords; split <;> rfl

lemma gapAdjust_none_th (pe : Option ℚ) (v : ℚ) (acc2 : List Segment) :
    gapAdjust none pe v acc2 = acc2 := by
  cases pe <;> rfl

lemma skipSpec_cons_invalid (rmw : Bool) (e : SegEntry) (rest : List SegEntry)
    (hinv : segEntryValid e = false) :
    skipSpec rmw (e :: rest) = skipSpec rmw rest.tail := by
  cases e with
  | pyStr str => cases rest <;> rfl
  | dict s =>
    have hte : s.text = [] := by
      by_contra hne
      simp [segEntryValid, hne] at hinv
    cases rest with
    | nil => simp [skipSpec, hte]
    | cons e2 r => simp [skipSpec, hte]

lemma skipSpec_cons_valid (rmw : Bool) (s : Segment) (rest : List SegEntry)
    (hne : s.text ≠ []) :
    skipSpec rmw (.dict s :: rest) = stripWords rmw s :: skipSpec rmw rest := by
  cases rest with
  | nil => simp [skipSpec, hne]
  | cons e2 r => simp [skipSpec, hne]

lemma nodup_erase_getElem {α : Type} [DecidableEq α] :
    ∀ (l : List α), l.Nodup → ∀ (i : ℕ) (h : i < l.length),
      l.erase (l.get ⟨i, h⟩) = l.take i ++ l.drop (i + 1) := by
  intro l
  induction l with
  | nil => intro _ i h; exact absurd h (by simp)
  | cons a t iht =>
    intro hnd i h
    cases i with
    | zero => simp
    | succ i =>
      have ht : i < t.length := by simpa using h
      have hmem : t.get ⟨i, ht⟩ ∈ t := by
        have : t[i] ∈ t := List.getElem_mem ht
        simpa using this
      have hne : ¬ (a == t.get ⟨i, ht⟩) = true := by
        simp only [beq_iff_eq]
        intro hEq
        exact (List.nodup_cons.mp hnd).1 (hEq ▸ hmem)
      have : (a :: t).get ⟨i + 1, h⟩ = t.get ⟨i, ht⟩ := rfl
      rw [this, List.erase_cons_tail hne, iht (List.nodup_cons.mp hnd).2 i ht]
      rfl

lemma postLoop_not_lt (th : Option ℚ) (rmw : Bool) (fuel : ℕ) (l : List SegEntry)
    (i : ℕ) (acc : List Segment) (pe : Option ℚ) (h : ¬ i < l.length) :
    postLoop th rmw (fuel + 1) l i acc pe = acc := by
  simp only [postLoop]
  rw [dif_neg h]

lemma postLoop_step_invalid (th : Option ℚ) (rmw : Bool) (fuel : ℕ)
    (l : List SegEntry) (i : ℕ) (acc : List Segment) (pe : Option ℚ)
    (h : i < l.length) (hinv : segEntryValid (l.get ⟨i, h⟩) = false) :
    postLoop th rmw (fuel + 1) l i acc pe
      = postLoop th rmw fuel (l.erase (l.get ⟨i, h⟩)) (i + 1) acc pe := by
  simp only [postLoop]
  rw [dif_pos h]
  rcases hg : l.get ⟨i, h⟩ with str | s
  · rfl
  · have hte : s.text = [] := by
      rw [hg] at hinv
      by_contra hne
      simp [segEntryValid, hne] at hinv
    exact if_pos hte

lemma postLoop_step_valid (th : Option ℚ) (rmw : Bool) (fuel : ℕ)
    (l : List SegEntry) (i : ℕ) (acc : List Segment) (pe : Option ℚ)
    (s : Segment) (h : i < l.length) (hg : l.get ⟨i, h⟩ = .dict s)
    (hne : s.text ≠ []) :
    postLoop th rmw (fuel + 1) l i acc pe
      = postLoop th rmw fuel l (i + 1)
          (gapAdjust th pe (stripWords rmw s).start (acc ++ [stripWords rmw s]))
          (some (stripWords rmw s).stop) := by
  simp only [postLoop]
  rw [dif_pos h, hg]
  exact if_neg hne

lemma postLoop_none_append (rmw : Bool) :
    ∀ (fuel : ℕ) (l : List SegEntry) (i : ℕ) (acc : List Segment) (pe : Option ℚ),
      postLoop none rmw fuel l i acc pe
        = acc ++ postLoop none rmw fuel l i [] none := by
  intro fuel
  induction fuel with
  | zero => intro l i acc pe; simp [postLoop]
  | succ f ih =>
    intro l i acc pe
    by_cases h : i < l.length
    · by_cases hval : segEntryValid (l.get ⟨i, h⟩) = true
      · rcases hg : l.get ⟨i, h⟩ with str | s
        · rw [hg] at hval; simp [segEntryValid] at hval
        · have hne : s.text ≠ [] := by
            rw [hg] at hval; simpa [segEntryValid] using hval
          rw [postLoop_step_valid none rmw f l i acc pe s h hg hne,
              postLoop_step_valid none rmw f l i [] none s h hg hne,
              gapAdjust_none_th, gapAdjust_none_th,
              ih l (i + 1) (acc ++ [stripWords rmw s]) (some (stripWords rmw s).stop),
              ih l (i + 1) ([] ++ [stripWords rmw s]) (some (stripWords rmw s).stop)]
          simp
      · have hinv : segEntryValid (l.get ⟨i, h⟩) = false := by
          simpa using hval
        rw [postLoop_step_invalid none rmw f l i acc pe h hinv,
            postLoop_step_invalid none rmw f l i [] none h hinv]
        exact ih _ _ _ _
    · rw [postLoop_not_lt none rmw f l i acc pe h,
          postLoop_not_lt none rmw f l i [] none h]
      simp

lemma postLoop_none_skip (rmw : Bool) :
    ∀ (fuel : ℕ) (l : List SegEntry) (i : ℕ) (acc : List Segment) (pe : Option ℚ),
      l.Nodup → l.length - i ≤ fuel →
      postLoop none rmw fuel l i acc pe = acc ++ skipSpec rmw (l.drop i) := by
  intro fuel
  induction fuel with
  | zero =>
    intro l i acc pe _ hf
    have hdrop : l.drop i = [] := List.drop_eq_nil_of_le (by omega)
    simp [postLoop, hdrop, skipSpec]
  | succ f ih =>
    intro l i acc pe hnd hf
    by_cases h : i < l.length
    · have hdrop : l.drop i = l.get ⟨i, h⟩ :: l.drop (i + 1) := by
        rw [List.drop_eq_getElem_cons h]
        rfl
      by_cases hval : segEntryValid (l.get ⟨i, h⟩) = true
      · rcases hg : l.get ⟨i, h⟩ with str | s
        · rw [hg] at hval; simp [segEntryValid] at hval
        · have hne : s.text ≠ [] := by
            rw [hg] at hval; simpa [segEntryValid] using hval
          rw [postLoop_step_valid none rmw f l i acc pe s h hg hne,
              gapAdjust_none_th,
              ih l (i + 1) (acc ++ [stripWords rmw s]) (some (stripWords rmw s).stop)
                hnd (by omega),
              hdrop, hg, skipSpec_cons_valid rmw s _ hne]
          simp
      · have hinv : segEntryValid (l.get ⟨i, h⟩) = false := by
          simpa using hval
        have hmem : l.get ⟨i, h⟩ ∈ l := by
          have : l[i] ∈ l := List.getElem_mem h
          simpa using this
        have herase : l.erase (l.get ⟨i, h⟩) = l.take i ++ l.drop (i + 1) :=
          nodup_erase_getElem l hnd i h
        have hlen : (l.erase (l.get ⟨i, h⟩)).length = l.length - 1 := by
          rw [List.length_erase_of_mem hmem]
        have htklen : (l.take i).length = i := by
          rw [List.length_take]
          omega
        rw [postLoop_step_invalid none rmw f l i acc pe h hinv,
            ih (l.erase (l.get ⟨i, h⟩)) (i + 1) acc pe (hnd.erase _) (by omega)]
        congr 1
        have hdrop2 : (l.erase (l.get ⟨i, h⟩)).drop (i + 1) = l.drop (i + 2) := by
          rw [herase, List.drop_append_eq_append_drop,
              List.drop_eq_nil_of_le (by omega), htklen, List.nil_append,
              List.drop_drop]
          have : i + 1 + (i + 1 - i) = i + 2 := by omega
          rw [this]
        rw [hdrop2, hdrop, skipSpec_cons_invalid rmw _ _ hinv, List.tail_drop]
    · have hdrop : l.drop i = [] := List.drop_eq_nil_of_le (by omega)
      rw [postLoop_not_lt none rmw f l i acc pe h]
      simp [hdrop, skipSpec]

lemma setStop_append (v : ℚ) :
    ∀ (acc : List Segment) (p : Segment) (tl : List Segment),
      setStop (acc ++ p :: tl) acc.length v = acc ++ {p with stop := v} :: tl := by
  intro acc
  induction acc with
  | nil => intro p tl; rfl
  | cons a r ih => intro p tl; simp [setStop, ih p tl]

lemma gapAdjust_some_some (t p : ℚ) (v : ℚ) (acc2 : List Segment) :
    gapAdjust (some t) (some p) v acc2
      = if v - p < t then setStop acc2 (acc2.length - 2) v else acc2 := rfl

lemma gapAdjust_none_pe (th : Option ℚ) (v : ℚ) (acc2 : List Segment) :
    gapAdjust th none v acc2 = acc2 := by
  cases th <;> rfl

lemma postLoop_some_gap (rmw : Bool) (t : ℚ) :
    ∀ (fuel : ℕ) (l : List SegEntry) (i : ℕ) (acc : List Segment) (p : Segment),
      postLoop (some t) rmw fuel l i (acc ++ [p]) (some p.stop)
        = acc ++ gapFill t (p :: postLoop none rmw fuel l i [] none) := by
  intro fuel
  induction fuel with
  | zero => intro l i acc p; simp [postLoop, gapFill]
  | succ f ih =>
    intro l i acc p
    by_cases h : i < l.length
    · by_cases hval : segEntryValid (l.get ⟨i, h⟩) = true
      · rcases hg : l.get ⟨i, h⟩ with str | s
        · rw [hg] at hval; simp [segEntryValid] at hval
        · have hne : s.text ≠ [] := by
            rw [hg] at hval; simpa [segEntryValid] using hval
          have hrhs : postLoop none rmw (f + 1) l i [] none
              = stripWords rmw s :: postLoop none rmw f l (i + 1) [] none := by
            rw [postLoop_step_valid none rmw f l i [] none s h hg hne,
                gapAdjust_none_th,
                postLoop_none_append rmw f l (i + 1) ([] ++ [stripWords rmw s])
                  (some (stripWords rmw s).stop)]
            simp
          rw [postLoop_step_valid (some t) rmw f l i (acc ++ [p]) (some p.stop)
                s h hg hne,
              gapAdjust_some_some, hrhs]
          by_cases hc : (stripWords rmw s).start - p.stop < t
      
          · rw [if_pos hc]
            have hacc : (acc ++ [p]) ++ [stripWords rmw s]
                = acc ++ p :: [stripWords rmw s] := by simp
            have hlen2 : ((acc ++ [p]) ++ [stripWords rmw s]).length - 2
                = acc.length := by simp
            rw [hlen2, hacc, setStop_append (stripWords rmw s).start acc p
                  [stripWords rmw s]]
            have hform : acc ++ {p with stop := (stripWords rmw s).start}
                :: [stripWords rmw s]
                = (acc ++ [{p with stop := (stripWords rmw s).start}])
                    ++ [stripWords rmw s] := by simp
            have hih := ih l (i + 1)
              (acc ++ [({p with stop := (stripWords rmw s).start} : Segment)])
              (stripWords rmw s)
            rw [hform, hih]
            rw [gapFill, if_pos hc]
            simp
          · rw [if_neg hc]
            rw [ih l (i + 1) (acc ++ [p]) (stripWords rmw s)]
            rw [gapFill, if_neg hc]
            simp
      · have hinv : segEntryValid (l.get ⟨i, h⟩) = false := by
          simpa using hval
        rw [postLoop_step_invalid (some t) rmw f l i (acc ++ [p]) (some p.stop)
              h hinv,
            postLoop_step_invalid none rmw f l i [] none h hinv]
        exact ih _ _ _ _
    · rw [postLoop_not_lt (some t) rmw f l i (acc ++ [p]) (some p.stop) h,
          postLoop_not_lt none rmw f l i [] none h]
      simp [gapFill]

lemma postLoop_some_start (rmw : Bool) (t : ℚ) :
    ∀ (fuel : ℕ) (l : List SegEntry) (i : ℕ),
      postLoop (some t) rmw fuel l i [] none
        = gapFill t (postLoop none rmw fuel l i [] none) := by
  intro fuel
  induction fuel with
  | zero => intro l i; simp [postLoop, gapFill]
  | succ f ih =>
    intro l i
    by_cases h : i < l.length
    · by_cases hval : segEntryValid (l.get ⟨i, h⟩) = true
      · rcases hg : l.get ⟨i, h⟩ with str | s
        · rw [hg] at hval; simp [segEntryValid] at hval
        · have hne : s.text ≠ [] := by
            rw [hg] at hval; simpa [segEntryValid] using hval
          have hrhs : postLoop none rmw (f + 1) l i [] none
              = stripWords rmw s :: postLoop none rmw f l (i + 1) [] none := by
            rw [postLoop_step_valid none rmw f l i [] none s h hg hne,
                gapAdjust_none_th,
                postLoop_none_append rmw f l (i + 1) ([] ++ [stripWords rmw s])
                  (some (stripWords rmw s).stop)]
            simp
          rw [postLoop_step_valid (some t) rmw f l i [] none s h hg hne,
              gapAdjust_none_pe,
              postLoop_some_gap rmw t f l (i + 1) [] (stripWords rmw s),
              hrhs]
          simp
      · have hinv : segEntryValid (l.get ⟨i, h⟩) = false := by
          simpa using hval
        rw [postLoop_step_invalid (some t) rmw f l i [] none h hinv,
            postLoop_step_invalid none rmw f l i [] none h hinv]
        exact ih _ _
    · rw [postLoop_not_lt (some t) rmw f l i [] none h,
          postLoop_not_lt none rmw f l i [] none h]
      simp [gapFill]

lemma postLoop_characterization (th : Option ℚ) (rmw : Bool) (l : List SegEntry)
    (hnd : l.Nodup) :
    postLoop th rmw l.length l 0 [] none = gapFillOpt th (skipSpec rmw l) := by
  cases th with
  | none =>
    have hs := postLoop_none_skip rmw l.length l 0 [] none hnd (by omega)
    simpa [gapFillOpt] using hs
  | some t =>
    rw [postLoop_some_start rmw t l.length l 0,
        postLoop_none_skip rmw l.length l 0 [] none hnd (by omega)]
    simp [gapFillOpt]

lemma split_segments_off (segs : List SegEntry) (opts : PostOptions)
    (hsp : opts.splitOnPunctuationMarks = false)
    (hwl : opts.maxWordsPerSegment = none)
    (hcl : opts.maxCharsPerSegment = none) :
    split_segments segs opts = some segs := by
  cases segs with
  | nil => rfl
  | cons e rest =>
    by_cases hw : hasWordsKey e = true
    · simp [split_segments, hw, hsp, hwl, hcl]
    · simp [split_segments, hw]

/-- **C8.** With a configured prevent-short-gaps threshold, the
post-processed segment list equals the threshold-free list with the
gap-filling pass `gapFill` applied on top; since `gapFill` rewrites only
the end of the previous segment (to the next segment's start) whenever the
next segment starts less than the threshold after the previous one ends,
and copies every other field and every other segment verbatim, only the
previous segment's end field is changed. -/
theorem post_process_prevent_short_gaps_frame (entries : List SegEntry)
    (opts : PostOptions) (t : ℚ) :
    processSegments {opts with preventShortGaps := some t} entries
      = (processSegments {opts with preventShortGaps := none} entries).map
          (gapFill t) := by
  have hss : split_segments entries {opts with preventShortGaps := some t}
      = split_segments entries {opts with preventShortGaps := none} := rfl
  unfold processSegments
  rw [hss]
  cases hs : split_segments entries {opts with preventShortGaps := none} with
  | none => rfl
  | some segs2 =>
    simp only [Option.map_some']
    exact congrArg some
      (postLoop_some_start opts.postRemoveWordTimestamps t segs2.length segs2 0)

/-- **C9 (amended).** With the splitting passes off and a duplicate-free
segments list, the post-processed segments are exactly `skipSpec` (plus the
optional gap fill): an invalid entry is dropped together with the entry
that follows it in the list AS ALREADY CONSUMED by the iterator — in
particular, when the list STARTS with an invalid entry, its immediate
successor is omitted (second conjunct).  The claim's stronger reading —
that EVERY valid segment immediately following an invalid entry in the
original list is omitted — is refuted by the counterexample below. -/
theorem post_process_invalid_entry_skip (entries : List SegEntry)
    (opts : PostOptions) (hnd : entries.Nodup)
    (hsp : opts.splitOnPunctuationMarks = false)
    (hwl : opts.maxWordsPerSegment = none)
    (hcl : opts.maxCharsPerSegment = none) :
    processSegments opts entries
      = some (gapFillOpt opts.preventShortGaps
          (skipSpec opts.postRemoveWordTimestamps entries)) ∧
    ∀ str e2 rest, entries = .pyStr str :: e2 :: rest →
      processSegments opts entries
        = some (gapFillOpt opts.preventShortGaps
            (skipSpec opts.postRemoveWordTimestamps rest)) := by
  have h1 : processSegments opts entries
      = some (gapFillOpt opts.preventShortGaps
          (skipSpec opts.postRemoveWordTimestamps entries)) := by
    unfold processSegments
    rw [split_segments_off entries opts hsp hwl hcl]
    simp only [Option.map_some']
    exact congrArg some
      (postLoop_characterization opts.preventShortGaps
        opts.postRemoveWordTimestamps entries hnd)
  refine ⟨h1, ?_⟩
  intro str e2 rest hent
  rw [h1, hent]
  rfl

/-- Counterexample to C9 as stated: in
`[pyStr "x", pyStr "y", dict s]` (no duplicates) the invalid entry
`pyStr "y"` is immediately followed by the valid segment `s`, yet the
post-processed result KEEPS `s`: processing `pyStr "x"` removes it and the
iterator skips `pyStr "y"` (which slides into the freed slot), so that
invalid entry is never examined and`s` is reached normally. -/
theorem post_process_invalid_successor_counterexample :
    segEntryValid (.pyStr ['y']) = false ∧
    segEntryValid (.dict ⟨none, 0, 1, ['a'], none⟩) = true ∧
    ([SegEntry.pyStr ['x'], .pyStr ['y'],
      .dict ⟨none, 0, 1, ['a'], none⟩] : List SegEntry).Nodup ∧
    processSegments {}
      [SegEntry.pyStr ['x'], .pyStr ['y'], .dict ⟨none, 0, 1, ['a'], none⟩]
      = some [⟨none, 0, 1, ['a'], none⟩] := by
  refine ⟨rfl, by decide, by decide, ?_⟩
  decide

/-- Witness for C9: the amended theorem applied at a concrete list whose
head is an invalid entry. -/
theorem post_process_invalid_entry_skip_witness :
    ([SegEntry.pyStr ['z'], .dict ⟨none, 0, 1, ['b'], none⟩] :
        List SegEntry).Nodup ∧
    processSegments {}
      [SegEntry.pyStr ['z'], .dict ⟨none, 0, 1, ['b'], none⟩]
      = some (gapFillOpt none (skipSpec false
          [SegEntry.pyStr ['z'], .dict ⟨none, 0, 1, ['b'], none⟩])) :=
  ⟨by decide,
   (post_process_invalid_entry_skip
      [SegEntry.pyStr ['z'], .dict ⟨none, 0, 1, ['b'], none⟩]
      {} (by decide) rfl rfl rfl).1⟩

/-! ## Transcript stitching (toolkit_ops.py lines 1728-1883)

`whisper_transcribe_segments` drives one inference call per audio window
and re-stitches the results.  The transcription store and the patched
whisper backend it talks to are repository code outside the provided
source tree, so they are modelled from the specification (store interface
`add_segments` / `delete_segments_between` / `generate_new_id`, and the
backend's cooperative cancellation poll). -/

/-- Modelled from the spec: the transcription store holds the persisted
segment list. -/
structure Transcription where
  segments : List Segment
deriving DecidableEq, Repr

/-- Modelled from the spec: `delete_segments_between(start, end)` removes
every stored segment whose span overlaps the window `[start, end)`. -/
def delete_segments_between (t : Transcription) (start stop : ℚ) :
    Transcription :=
  {segments := t.segments.filter fun s => ¬ (s.start < stop ∧ start < s.stop)}

/-- Modelled from the spec: `generate_new_id` returns the next unused
segment id — one past the maximum stored id, `0` for a store with no
identified segments. -/
def generate_new_segment_id (t : Transcription) : ℤ :=
  match t.segments.filterMap Segment.id with
  | [] => 0
  | i :: is => is.foldl max i + 1

/-- Modelled from the spec: `add_segments` appends a batch to the store
(the source bulk-adds one batch per window). -/
def add_segments (t : Transcription) (batch : List Segment) : Transcription :=
  {segments := t.segments ++ batch}

/-- Offset a word's times by the window start and clip them into the
window (lines 1848-1860). -/
def offsetClipWord (ws we : ℚ) (w : Word) : Word :=
  let st := w.start + ws
  let en := w.stop + ws
  {w with
    start := if st < ws then ws else st,
    stop := if en > we then we else en}

/-- Offset a segment's (and its words') times by the window start and clip
them into the window (lines 1833-1860); whisper debug keys are dropped
here by the source, which the segment model does not carry. -/
def offsetClipSeg (ws we : ℚ) (s : Segment) : Segment :=
  let st := s.start + ws
  let en := s.stop + ws
  {s with
    start := if st < ws then ws else st,
    stop := if en > we then we else en,
    words := s.words.map fun l => l.map (offsetClipWord ws we)}

/-- `transcript_segment['id'] = next_segment_id + id_count` with `id_count`
incremented per emitted segment (lines 1862-1863), over one batch. -/
def assignIds (nextId : ℤ) : List Segment → List Segment
  | [] => []
  | s :: rest => {s with id := some nextId} :: assignIds (nextId + 1) rest

/-- Mutable state of the stitching loop: the optional store, the
accumulated `results['segments']`, the running `id_count`, the last written
`results['whisper_language']` and the last backend result (whose status is
copied out after the loop). -/
structure StitchState where
  store : Option Transcription
  acc : List Segment
  idCount : ℕ
  lang : Option (List Char)
  lastResult : Option WhisperResult
deriving DecidableEq, Repr

/-- The `results` dict of `whisper_transcribe_segments`. -/
structure StitchResults where
  segments : List Segment
  whisperLanguage : Option (List Char)
  status : Option TStatus
deriving DecidableEq, Repr

/-- One iteration of the stitching loop (lines 1757-1880) for the window
`w = (start, end, samples)` at position `idx`: delete stored segments
overlapping the window, call the backend, post-process its result, and —
when the post-processed segment list is non-empty (Python truthiness of
`result['segments']`) — offset, clip and id-stamp the batch, append it to
the results and to the store.  `none` propagates an uncaught splitter
exception from post-processing. -/
def stitchWindow (backend : ℕ → List ℚ → WhisperResult) (opts : PostOptions)
    (nextId : ℤ) (idx : ℕ) (w : ℚ × ℚ × List ℚ) (st : StitchState) :
    Option StitchState :=
  let ws := w.1
  let we := w.2.1
  let store1 := st.store.map fun tr => delete_segments_between tr ws we
  let raw := backend idx w.2.2
  match raw.segments with
  | none => some {st with store := store1, lastResult := some raw}
  | some entries =>
    match processSegments opts entries with
    | none => none
    | some ks =>
      let res : WhisperResult := {raw with segments := some (ks.map .dict)}
      if ks = [] then some {st with store := store1, lastResult := some res}
      else
        let batch := assignIds (nextId + (st.idCount : ℤ))
          (ks.map (offsetClipSeg ws we))
        some {st with
          store := store1.map fun tr => add_segments tr batch,
          acc := st.acc ++ batch,
          idCount := st.idCount + ks.length,
          lang := some (res.language.getD []),
          lastResult := some res}

/-- The `for audio_segment in audio_segments` loop, windows in order,
threading the loop state; `idx` is the position of the next window. -/
def stitchGo (backend : ℕ → List ℚ → WhisperResult) (opts : PostOptions)
    (nextId : ℤ) : List (ℚ × ℚ × List ℚ) → ℕ → StitchState →
    Option StitchState
  | [], _, st => some st
  | w :: rest, idx, st =>
    match stitchWindow backend opts nextId idx w st with
    | none => none
    | some st2 => stitchGo backend opts nextId rest (idx + 1) st2

/-- `whisper_transcribe_segments(audio_segments, ...)` (lines 1728-1883):
compute the starting id from the store (0 without a store), run the loop
from an empty results list, then copy the last result's status (if any)
into the results.  Returns the results dict and the final store.
`nextIdOf` is the `next_segment_id` initialisation of line 1756. -/
def nextIdOf : Option Transcription → ℤ
  | none => 0
  | some tr => generate_new_segment_id tr

def whisper_transcribe_segments (backend : ℕ → List ℚ → WhisperResult)
    (opts : PostOptions) (store : Option Transcription)
    (windows : List (ℚ × ℚ × List ℚ)) :
    Option (StitchResults × Option Transcription) :=
  (stitchGo backend opts (nextIdOf store) windows 0
      {store := store, acc := [], idCount := 0, lang := none,
       lastResult := none}).map
    fun st =>
      ({segments := st.acc, whisperLanguage := st.lang,
        status := st.lastResult.bind WhisperResult.status}, st.store)

/-- Modelled from the spec: the patched whisper backend polls the
cooperative cancellation flag at its first checkpoint.  Once cancellation
is requested before window `k`, every backend call from window `k` on
observes the flag immediately and returns no segments with status
`canceled`; calls for earlier windows ran before the request and behave
like the raw backend. -/
def cancelableBackend (raw : ℕ → List ℚ → WhisperResult)
    (cancelAt : Option ℕ) (i : ℕ) (samples : List ℚ) : WhisperResult :=
  match cancelAt with
  | none => raw i samples
  | some k =>
    if k ≤ i then {segments := some [], language := none,
                   status := some .canceled}
    else raw i samples

/-- The window deletions applied to a store by a run over `ws`, ignoring
additions. -/
def deleteAll (tr : Transcription) (ws : List (ℚ × ℚ × List ℚ)) :
    Transcription :=
  ws.foldl (fun t w => delete_segments_between t w.1 w.2.1) tr

/-- The result a canceled backend call returns. -/
def canceledResult : WhisperResult :=
  {segments := some [], language := none, status := some .canceled}

lemma stitchWindow_eq_of_backend (b1 b2 : ℕ → List ℚ → WhisperResult)
    (o : PostOptions) (n : ℤ) (idx : ℕ) (w : ℚ × ℚ × List ℚ)
    (st : StitchState) (hb : b1 idx w.2.2 = b2 idx w.2.2) :
    stitchWindow b1 o n idx w st = stitchWindow b2 o n idx w st := by
  unfold stitchWindow
  rw [hb]

lemma stitch_canceled_step (o : PostOptions) (n : ℤ) (idx : ℕ)
    (w : ℚ × ℚ × List ℚ) (st : StitchState) :
    stitchWindow (fun _ _ => canceledResult) o n idx w st
      = some {st with
          store := st.store.map fun tr => delete_segments_between tr w.1 w.2.1,
          lastResult := some canceledResult} := rfl

lemma stitchGo_append (b : ℕ → List ℚ → WhisperResult) (o : PostOptions)
    (n : ℤ) : ∀ (l1 l2 : List (ℚ × ℚ × List ℚ)) (idx : ℕ) (st : StitchState),
    stitchGo b o n (l1 ++ l2) idx st
      = match stitchGo b o n l1 idx st with
        | none => none
        | some st1 => stitchGo b o n l2 (idx + l1.length) st1 := by
  intro l1
  induction l1 with
  | nil => intro l2 idx st; simp [stitchGo]
  | cons w r ih =>
    intro l2 idx st
    cases hsw : stitchWindow b o n idx w st with
    | none => simp only [List.cons_append, stitchGo, hsw]
    | some st2 =>
      simp only [List.cons_append, stitchGo, hsw, List.append_eq]
      rw [ih l2 (idx + 1) st2]
      have harith : idx + 1 + r.length = idx + (r.length + 1) := by omega
      simp only [List.length_cons, harith]

lemma stitchGo_eq_raw (raw : ℕ → List ℚ → WhisperResult) (o : PostOptions)
    (n : ℤ) (k : ℕ) : ∀ (l : List (ℚ × ℚ × List ℚ)) (idx : ℕ)
    (st : StitchState), idx + l.length ≤ k →
    stitchGo (cancelableBackend raw (some k)) o n l idx st
      = stitchGo raw o n l idx st := by
  intro l
  induction l with
  | nil => intro idx st h; rfl
  | cons w r ih =>
    intro idx st h
    have hb : stitchWindow (cancelableBackend raw (some k)) o n idx w st
        = stitchWindow raw o n idx w st := by
      apply stitchWindow_eq_of_backend
      exact if_neg (by simp at h; omega)
    cases hsw : stitchWindow raw o n idx w st with
    | none => simp only [stitchGo, hb, hsw]
    | some st2 =>
      simp only [stitchGo, hb, hsw]
      exact ih (idx + 1) st2 (by simp at h ⊢; omega)

lemma stitchGo_canceled (raw : ℕ → List ℚ → WhisperResult) (o : PostOptions)
    (n : ℤ) (k : ℕ) : ∀ (l : List (ℚ × ℚ × List ℚ)) (idx : ℕ)
    (st : StitchState), k ≤ idx →
    stitchGo (cancelableBackend raw (some k)) o n l idx st
      = some {st with
          store := st.store.map fun tr => deleteAll tr l,
          lastResult :=
            if l.isEmpty then st.lastResult else some canceledResult} := by
  intro l
  induction l with
  | nil =>
    intro idx st hk
    have hmap : st.store.map (fun tr => deleteAll tr []) = st.store := by
      cases st.store <;> rfl
    simp [stitchGo, hmap]
  | cons w r ih =>
    intro idx st hk
    have hb : stitchWindow (cancelableBackend raw (some k)) o n idx w st
        = some {st with
            store := st.store.map fun tr =>
              delete_segments_between tr w.1 w.2.1,
            lastResult := some canceledResult} := by
      rw [stitchWindow_eq_of_backend (cancelableBackend raw (some k))
            (fun _ _ => canceledResult) o n idx w st (if_pos hk),
          stitch_canceled_step]
    simp only [stitchGo, hb]
    rw [ih (idx + 1) _ (by omega)]
    have hmap : (st.store.map fun tr =>
          delete_segments_between tr w.1 w.2.1).map (fun tr => deleteAll tr r)
        = st.store.map fun tr => deleteAll tr (w :: r) := by
      cases st.store <;> rfl
    cases r with
    | nil => simp [hmap]
    | cons w2 r2 => simp [hmap]

/-- **C2.** Cancellation requested before window `k` of a stitching run
(modelled by the backend's cooperative poll observing the flag from window
`k` on): the run still walks the remaining windows — each later backend
call returns immediately with no segments — so the emitted segments are
exactly those of a cancellation-free run over the first `k` windows, the
final status is `canceled`, and the store receives no segments from window
`k` or later (only the per-window deletions still apply to it). -/
theorem whisper_transcribe_cancellation (raw : ℕ → List ℚ → WhisperResult)
    (opts : PostOptions) (store : Option Transcription)
    (windows : List (ℚ × ℚ × List ℚ)) (k : ℕ)
    (out : StitchResults × Option Transcription)
    (hk : k < windows.length)
    (hrun : whisper_transcribe_segments (cancelableBackend raw (some k))
      opts store windows = some out) :
    ∃ outk, whisper_transcribe_segments raw opts store (windows.take k)
        = some outk ∧
      out.1.segments = outk.1.segments ∧
      out.1.status = some .canceled ∧
      out.2 = outk.2.map fun tr => deleteAll tr (windows.drop k) := by
  unfold whisper_transcribe_segments at hrun ⊢
  have htklen : (windows.take k).length = k := by
    rw [List.length_take]
    omega
  rw [show windows = windows.take k ++ windows.drop k from
        (List.take_append_drop k windows).symm] at hrun
  rw [stitchGo_append] at hrun
  rw [stitchGo_eq_raw raw opts (nextIdOf store) k (windows.take k) 0 _
        (by simp [htklen])] at hrun
  cases hst : stitchGo raw opts (nextIdOf store) (windows.take k) 0
      {store := store, acc := [], idCount := 0, lang := none,
       lastResult := none} with
  | none =>
    rw [hst] at hrun
    simp at hrun
  | some st1 =>
    simp only [hst] at hrun
    rw [stitchGo_canceled raw opts (nextIdOf store) k (windows.drop k)
          (0 + (windows.take k).length) st1 (by omega)] at hrun
    have hdne : windows.drop k ≠ [] := by
      intro hEq
      have := List.drop_eq_nil_iff.mp hEq
      omega
    have hie : (windows.drop k).isEmpty = false := by
      cases hdd : windows.drop k with
      | nil => exact absurd hdd hdne
      | cons a t => rfl
    rw [if_neg (by simp [hie])] at hrun
    simp only [Option.map_some'] at hrun
    have hout := (Option.some_inj.mp hrun).symm
    refine ⟨(⟨st1.acc, st1.lang, st1.lastResult.bind WhisperResult.status⟩,
        st1.store), rfl, ?_, ?_, ?_⟩
    · simp [hout]
    · simp [hout, canceledResult]
    · simp [hout]

/-- Witness for C2: a two-window run with cancellation before window 1;
both the prefix equality and the canceled status evaluate on concrete
data. -/
theorem whisper_transcribe_cancellation_witness :
    1 < ([((0 : ℚ), (1 : ℚ), ([] : List ℚ)),
          ((0 : ℚ), (1 : ℚ), ([] : List ℚ))]).length ∧
    ∃ outk,
      whisper_transcribe_segments (fun _ _ => ⟨some [], none, none⟩) {}
          (some ⟨[⟨some 7, 0, 1, ['a'], none⟩]⟩)
          ([((0 : ℚ), (1 : ℚ), ([] : List ℚ)),
            ((0 : ℚ), (1 : ℚ), ([] : List ℚ))].take 1)
        = some outk ∧
      (({segments := [], whisperLanguage := none,
          status := some .canceled} : StitchResults),
        (some ⟨[]⟩ : Option Transcription)).1.segments
          = outk.1.segments ∧
      (({segments := [], whisperLanguage := none,
          status := some .canceled} : StitchResults),
        (some ⟨[]⟩ : Option Transcription)).1.status = some .canceled ∧
      (({segments := [], whisperLanguage := none,
          status := some .canceled} : StitchResults),
        (some ⟨[]⟩ : Option Transcription)).2
          = outk.2.map fun tr => deleteAll tr
              ([((0 : ℚ), (1 : ℚ), ([] : List ℚ)),
                ((0 : ℚ), (1 : ℚ), ([] : List ℚ))].drop 1) :=
  ⟨by decide,
   whisper_transcribe_cancellation (fun _ _ => ⟨some [], none, none⟩) {}
     (some ⟨[⟨some 7, 0, 1, ['a'], none⟩]⟩)
     [((0 : ℚ), (1 : ℚ), ([] : List ℚ)),
      ((0 : ℚ), (1 : ℚ), ([] : List ℚ))] 1
     (({segments := [], whisperLanguage := none,
         status := some .canceled} : StitchResults),
       (some ⟨[]⟩ : Option Transcription))
     (by decide) (by decide)⟩

/-- The id `next_segment_id + id_count` written for the `j`-th emitted
segment of a run. -/
def idFrom (base : ℤ) (j : ℕ) : Option ℤ := some (base + (j : ℤ))

lemma assignIds_length : ∀ (base : ℤ) (l : List Segment),
    (assignIds base l).length = l.length := by
  intro base l
  induction l generalizing base with
  | nil => rfl
  | cons s rest ih => simp [assignIds, ih]

lemma assignIds_ids : ∀ (base : ℤ) (l : List Segment),
    (assignIds base l).map Segment.id
      = (List.range l.length).map (idFrom base) := by
  intro base l
  induction l generalizing base with
  | nil => rfl
  | cons s rest ih =>
    simp only [assignIds, List.map_cons, List.length_cons,
      List.range_succ_eq_map, List.map_map]
    refine List.cons_eq_cons.mpr ⟨by simp [idFrom], ?_⟩
    rw [ih (base + 1)]
    apply List.map_congr_left
    intro j hj
    simp only [Function.comp_apply, idFrom, Option.some.injEq]
    push_cast
    ring

lemma stitchWindow_ids (b : ℕ → List ℚ → WhisperResult) (o : PostOptions)
    (nid : ℤ) (idx : ℕ) (w : ℚ × ℚ × List ℚ) (st stm : StitchState)
    (hsw : stitchWindow b o nid idx w st = some stm)
    (h1 : st.acc.map Segment.id = (List.range st.acc.length).map (idFrom nid))
    (h2 : st.idCount = st.acc.length) :
    stm.acc.map Segment.id = (List.range stm.acc.length).map (idFrom nid)
      ∧ stm.idCount = stm.acc.length := by
  simp only [stitchWindow] at hsw
  cases hseg : (b idx w.2.2).segments with
  | none =>
    simp only [hseg, Option.some.injEq] at hsw
    rw [← hsw]
    exact ⟨h1, h2⟩
  | some entries =>
    simp only [hseg] at hsw
    cases hps : processSegments o entries with
    | none =>
      simp only [hps] at hsw
      exact Option.noConfusion hsw
    | some ks =>
      simp only [hps] at hsw
      by_cases hks : ks = []
      · rw [if_pos hks] at hsw
        simp only [Option.some.injEq] at hsw
        rw [← hsw]
        exact ⟨h1, h2⟩
      · rw [if_neg hks] at hsw
        simp only [Option.some.injEq] at hsw
        rw [← hsw]
        constructor
        · simp only [List.map_append, List.length_append, h1,
            assignIds_ids, assignIds_length, List.length_map]
          rw [← h2, List.range_add, List.map_append, List.map_map]
          congr 1
          apply List.map_congr_left
          intro j hj
          simp only [Function.comp_apply, idFrom, Option.some.injEq]
          push_cast
          ring
        · simp only [List.length_append, assignIds_length, List.length_map,
            h2]

lemma stitchGo_ids (b : ℕ → List ℚ → WhisperResult) (o : PostOptions)
    (nid : ℤ) : ∀ (l : List (ℚ × ℚ × List ℚ)) (idx : ℕ)
    (st st2 : StitchState),
    stitchGo b o nid l idx st = some st2 →
    st.acc.map Segment.id = (List.range st.acc.length).map (idFrom nid) →
    st.idCount = st.acc.length →
    st2.acc.map Segment.id = (List.range st2.acc.length).map (idFrom nid)
      ∧ st2.idCount = st2.acc.length := by
  intro l
  induction l with
  | nil =>
    intro idx st st2 h h1 h2
    simp only [stitchGo, Option.some.injEq] at h
    rw [← h]
    exact ⟨h1, h2⟩
  | cons w r ih =>
    intro idx st st2 h h1 h2
    cases hsw : stitchWindow b o nid idx w st with
    | none => simp [stitchGo, hsw] at h
    | some stm =>
      simp only [stitchGo, hsw] at h
      obtain ⟨hm1, hm2⟩ := stitchWindow_ids b o nid idx w st stm hsw h1 h2
      exact ih (idx + 1) stm st2 h hm1 hm2

/-- **C3.** In one completed call of the stitcher over any window sequence,
the emitted segments carry the ids
`nextIdOf store, nextIdOf store + 1, ...` in emission order — the run
starts at the transcription store's current next id (`0` without a store),
assigns ids strictly increasing in emission order across all windows, and
in particular no two emitted segments share an id. -/
theorem whisper_transcribe_segment_ids (backend : ℕ → List ℚ → WhisperResult)
    (opts : PostOptions) (store : Option Transcription)
    (windows : List (ℚ × ℚ × List ℚ))
    (out : StitchResults × Option Transcription)
    (hrun : whisper_transcribe_segments backend opts store windows
      = some out) :
    out.1.segments.map Segment.id
      = (List.range out.1.segments.length).map (idFrom (nextIdOf store)) ∧
    (out.1.segments.map Segment.id).Nodup := by
  unfold whisper_transcribe_segments at hrun
  cases hgo : stitchGo backend opts (nextIdOf store) windows 0
      {store := store, acc := [], idCount := 0, lang := none,
       lastResult := none} with
  | none =>
    rw [hgo] at hrun
    simp at hrun
  | some stf =>
    simp only [hgo, Option.map_some'] at hrun
    obtain ⟨hids, _⟩ := stitchGo_ids backend opts (nextIdOf store) windows 0
      _ stf hgo (by simp) (by simp)
    have hout := Option.some_inj.mp hrun
    have hseg : out.1.segments = stf.acc := by
      rw [← hout]
    constructor
    · rw [hseg]
      exact hids
    · rw [hseg, hids]
      apply List.Nodup.map
      · intro a b hab
        simp only [idFrom, Option.some.injEq] at hab
        omega
      · exact List.nodup_range _

/-- Witness for C3: a one-window run against a store whose maximum segment
id is 4, so the next id is 5; the backend returns no segments, and the id
equation holds for the (empty) emission list. -/
theorem whisper_transcribe_segment_ids_witness :
    whisper_transcribe_segments (fun _ _ => ⟨some [], none, none⟩) {}
        (some ⟨[⟨some 4, 0, 1, ['a'], none⟩]⟩) [((0 : ℚ), (1 : ℚ), [])]
      = some (⟨[], none, none⟩, some ⟨[]⟩) ∧
    ((⟨[], none, none⟩ : StitchResults),
        (some ⟨[]⟩ : Option Transcription)).1.segments.map Segment.id
      = (List.range ((⟨[], none, none⟩ : StitchResults),
          (some ⟨[]⟩ : Option Transcription)).1.segments.length).map
          (idFrom (nextIdOf (some ⟨[⟨some 4, 0, 1, ['a'], none⟩]⟩))) ∧
    (((⟨[], none, none⟩ : StitchResults),
        (some ⟨[]⟩ : Option Transcription)).1.segments.map
          Segment.id).Nodup :=
  ⟨by decide,
   whisper_transcribe_segment_ids (fun _ _ => ⟨some [], none, none⟩) {}
     (some ⟨[⟨some 4, 0, 1, ['a'], none⟩]⟩) [((0 : ℚ), (1 : ℚ), [])]
     (⟨[], none, none⟩, some ⟨[]⟩) (by decide)⟩
